import Mathlib

/-!
Verification of the sitesync sync engine against its specification.

The Go sources are shallowly embedded: Go strings become `List Char`
(with byte lengths computed from the UTF-8 size of each character),
Go functions become executable Lean definitions, and the engine's
event channel becomes the list of emitted events.  Definition names
follow the Go source (`resilientReplaceLiteral`, `buildDumpArgs`,
`redactArgs`, `DumpFilePath`, ...).
-/

namespace SiteSync

/-- Go strings, embedded as lists of unicode characters. -/
abbrev Str := List Char

/-- Number of bytes of the UTF-8 encoding of one character
(Go `len(string(c))` for a rune). -/
def charBytes (c : Char) : Nat :=
  if c.toNat < 128 then 1
  else if c.toNat < 2048 then 2
  else if c.toNat < 65536 then 3
  else 4

/-- Go `len(s)` on a string: total number of UTF-8 bytes. -/
def byteLen (s : Str) : Nat := (s.map charBytes).sum

theorem byteLen_nil : byteLen [] = 0 := rfl

theorem byteLen_cons (c : Char) (s : Str) :
    byteLen (c :: s) = charBytes c + byteLen s := by
  simp [byteLen]

theorem byteLen_append (s t : Str) :
    byteLen (s ++ t) = byteLen s + byteLen t := by
  simp [byteLen]

/-- Structural worker for the occurrence counter: the second argument is
the number of characters still to be skipped over after a match. -/
def countOccAux (sh : Char) (st : Str) : Str → Nat → Nat
  | [], _ => 0
  | _ :: rest, skip + 1 => countOccAux sh st rest skip
  | c :: rest, 0 =>
    if (sh :: st).isPrefixOf (c :: rest) then
      1 + countOccAux sh st rest st.length
    else
      countOccAux sh st rest 0

/-- Counter of non-overlapping occurrences of a non-empty search string
`sh :: st`, scanning left to right (Go `strings.Count` for non-empty
arguments). -/
def countOccNE (sh : Char) (st : Str) (s : Str) : Nat := countOccAux sh st s 0

/-- Structural worker for the replacer, with the same skip convention. -/
def replaceAllAux (sh : Char) (st : Str) (repl : Str) : Str → Nat → Str
  | [], _ => []
  | _ :: rest, skip + 1 => replaceAllAux sh st repl rest skip
  | c :: rest, 0 =>
    if (sh :: st).isPrefixOf (c :: rest) then
      repl ++ replaceAllAux sh st repl rest st.length
    else
      c :: replaceAllAux sh st repl rest 0

/-- Left-to-right non-overlapping replacement of a non-empty search string
(Go `strings.ReplaceAll` for non-empty `old`). -/
def replaceAllNE (sh : Char) (st : Str) (repl : Str) (s : Str) : Str :=
  replaceAllAux sh st repl s 0

theorem countOccAux_skip (sh : Char) (st : Str) :
    ∀ s : Str, ∀ k : Nat, countOccAux sh st s k = countOccAux sh st (s.drop k) 0 := by
  intro s
  induction s with
  | nil => intro k; simp [countOccAux]
  | cons c rest ih =>
    intro k
    match k with
    | 0 => rfl
    | k + 1 =>
      show countOccAux sh st rest k = _
      rw [ih k]
      rfl

theorem replaceAllAux_skip (sh : Char) (st repl : Str) :
    ∀ s : Str, ∀ k : Nat,
      replaceAllAux sh st repl s k = replaceAllAux sh st repl (s.drop k) 0 := by
  intro s
  induction s with
  | nil => intro k; simp [replaceAllAux]
  | cons c rest ih =>
    intro k
    match k with
    | 0 => rfl
    | k + 1 =>
      show replaceAllAux sh st repl rest k = _
      rw [ih k]
      rfl

theorem countOccNE_nil (sh : Char) (st : Str) : countOccNE sh st [] = 0 := rfl

/-- The natural recursion of the occurrence counter. -/
theorem countOccNE_cons (sh : Char) (st : Str) (c : Char) (rest : Str) :
    countOccNE sh st (c :: rest) =
      if (sh :: st).isPrefixOf (c :: rest) then
        1 + countOccNE sh st (rest.drop st.length)
      else
        countOccNE sh st rest := by
  show countOccAux sh st (c :: rest) 0 = _
  rw [countOccAux]
  by_cases h : (sh :: st).isPrefixOf (c :: rest) = true
  · rw [if_pos h, if_pos h, countOccAux_skip]
    rfl
  · rw [if_neg h, if_neg h]
    rfl

theorem replaceAllNE_nil (sh : Char) (st repl : Str) :
    replaceAllNE sh st repl [] = [] := rfl

/-- The natural recursion of the replacer. -/
theorem replaceAllNE_cons (sh : Char) (st repl : Str) (c : Char) (rest : Str) :
    replaceAllNE sh st repl (c :: rest) =
      if (sh :: st).isPrefixOf (c :: rest) then
        repl ++ replaceAllNE sh st repl (rest.drop st.length)
      else
        c :: replaceAllNE sh st repl rest := by
  show replaceAllAux sh st repl (c :: rest) 0 = _
  rw [replaceAllAux]
  by_cases h : (sh :: st).isPrefixOf (c :: rest) = true
  · rw [if_pos h, if_pos h, replaceAllAux_skip]
    rfl
  · rw [if_neg h, if_neg h]
    rfl

/-- Go `strings.Count(s, search)`: for empty `search` this is the number of
runes plus one. -/
def goCount (search s : Str) : Nat :=
  match search with
  | [] => s.length + 1
  | sh :: st => countOccNE sh st s

/-- Go `strings.ReplaceAll(s, search, repl)`: for empty `search`, `repl` is
inserted before every rune and at the end. -/
def goReplaceAll (search repl s : Str) : Str :=
  match search with
  | [] => repl ++ s.foldr (fun c acc => c :: (repl ++ acc)) []
  | sh :: st => replaceAllNE sh st repl s

/-- Boolean substring test, via the occurrence counter. -/
def containsSub (search s : Str) : Bool := goCount search s ≠ 0

theorem isPrefixOf_decomp {sh : Char} {st : Str} {c : Char} {rest : Str}
    (h : (sh :: st).isPrefixOf (c :: rest) = true) :
    c = sh ∧ rest = st ++ rest.drop st.length := by
  rw [List.isPrefixOf_iff_prefix] at h
  rcases h with ⟨t, ht⟩
  have hc : c = sh := by
    have := congrArg (fun l => l.head?) ht
    simpa using this.symm
  have hrest : rest = st ++ t := by
    have := congrArg List.tail ht
    simpa using this.symm
  refine ⟨hc, ?_⟩
  rw [hrest, List.drop_left]

theorem byteLen_prefix_decomp {sh : Char} {st : Str} {c : Char} {rest : Str}
    (h : (sh :: st).isPrefixOf (c :: rest) = true) :
    byteLen (c :: rest) = byteLen (sh :: st) + byteLen (rest.drop st.length) := by
  rcases isPrefixOf_decomp h with ⟨hc, hrest⟩
  conv_lhs => rw [hc, hrest]
  rw [byteLen_cons, byteLen_cons, byteLen_append]
  ring

theorem length_prefix_decomp {sh : Char} {st : Str} {c : Char} {rest : Str}
    (h : (sh :: st).isPrefixOf (c :: rest) = true) :
    (c :: rest).length = (sh :: st).length + (rest.drop st.length).length := by
  rcases isPrefixOf_decomp h with ⟨hc, hrest⟩
  conv_lhs => rw [hc, hrest]
  simp only [List.length_cons, List.length_append, List.length_drop]
  omega

/-- The byte length of a replacement result is the original byte length plus
`count × (bytes(repl) − bytes(search))`, over the integers. -/
theorem byteLen_replaceAllNE (sh : Char) (st repl : Str) :
    ∀ s : Str,
      (byteLen (replaceAllNE sh st repl s) : Int) =
        (byteLen s : Int) +
          (countOccNE sh st s : Int) *
            ((byteLen repl : Int) - (byteLen (sh :: st) : Int)) := by
  have main : ∀ n : Nat, ∀ s : Str, s.length ≤ n →
      (byteLen (replaceAllNE sh st repl s) : Int) =
        (byteLen s : Int) +
          (countOccNE sh st s : Int) *
            ((byteLen repl : Int) - (byteLen (sh :: st) : Int)) := by
    intro n
    induction n with
    | zero =>
      intro s hs
      have : s = [] := List.length_eq_zero.mp (Nat.le_zero.mp hs)
      subst this
      simp [replaceAllNE_nil, countOccNE_nil]
    | succ n ih =>
      intro s hs
      match s with
      | [] => simp [replaceAllNE_nil, countOccNE_nil]
      | c :: rest =>
        rw [replaceAllNE_cons, countOccNE_cons]
        by_cases h : (sh :: st).isPrefixOf (c :: rest) = true
        · rw [if_pos h, if_pos h]
          have hlen : (rest.drop st.length).length ≤ n := by
            have := length_prefix_decomp h
            simp only [List.length_cons] at hs this
            omega
          rw [byteLen_append, Nat.cast_add, ih _ hlen, byteLen_prefix_decomp h]
          push_cast
          ring
        · rw [if_neg h, if_neg h]
          have hlen : rest.length ≤ n := by
            simp only [List.length_cons] at hs
            omega
          have hrec := ih rest hlen
          simp only [byteLen_cons] at hrec ⊢
          push_cast at hrec ⊢
          rw [hrec]
          ring
  intro s
  exact main s.length s le_rfl

/-- Replacing a string by itself is the identity. -/
theorem replaceAllNE_self (sh : Char) (st : Str) :
    ∀ s : Str, replaceAllNE sh st (sh :: st) s = s := by
  have main : ∀ n : Nat, ∀ s : Str, s.length ≤ n →
      replaceAllNE sh st (sh :: st) s = s := by
    intro n
    induction n with
    | zero =>
      intro s hs
      have : s = [] := List.length_eq_zero.mp (Nat.le_zero.mp hs)
      subst this
      simp [replaceAllNE_nil]
    | succ n ih =>
      intro s hs
      match s with
      | [] => simp [replaceAllNE_nil]
      | c :: rest =>
        rw [replaceAllNE_cons]
        by_cases h : (sh :: st).isPrefixOf (c :: rest) = true
        · rw [if_pos h]
          have hlen : (rest.drop st.length).length ≤ n := by
            have := length_prefix_decomp h
            simp only [List.length_cons] at hs this
            omega
          rw [ih _ hlen]
          rcases isPrefixOf_decomp h with ⟨hc, hrest⟩
          rw [hc, List.cons_append, ← hrest]
        · rw [if_neg h]
          have hlen : rest.length ≤ n := by
            simp only [List.length_cons] at hs
            omega
          rw [ih _ hlen]
  intro s
  exact main s.length s le_rfl

/-- `goReplaceAll` with equal search and replacement is the identity. -/
theorem goReplaceAll_self (search : Str) (s : Str) :
    goReplaceAll search search s = s := by
  match search with
  | [] =>
    show [] ++ s.foldr (fun c acc => c :: ([] ++ acc)) [] = s
    induction s with
    | nil => rfl
    | cons c rest ih =>
      simp only [List.nil_append, List.foldr_cons] at ih ⊢
      rw [ih]
  | sh :: st => exact replaceAllNE_self sh st s

/-- A positive occurrence count yields an actual substring occurrence. -/
theorem infix_of_countOccNE_ne_zero (sh : Char) (st : Str) :
    ∀ s : Str, countOccNE sh st s ≠ 0 → (sh :: st) <:+: s := by
  have main : ∀ n : Nat, ∀ s : Str, s.length ≤ n →
      countOccNE sh st s ≠ 0 → (sh :: st) <:+: s := by
    intro n
    induction n with
    | zero =>
      intro s hs h
      have : s = [] := List.length_eq_zero.mp (Nat.le_zero.mp hs)
      subst this
      simp [countOccNE_nil] at h
    | succ n ih =>
      intro s hs h
      match s with
      | [] => simp [countOccNE_nil] at h
      | c :: rest =>
        rw [countOccNE_cons] at h
        by_cases hp : (sh :: st).isPrefixOf (c :: rest) = true
        · rw [List.isPrefixOf_iff_prefix] at hp
          exact hp.isInfix
        · rw [if_neg hp] at h
          have hlen : rest.length ≤ n := by
            simp only [List.length_cons] at hs
            omega
          exact (ih rest hlen h).trans (List.infix_cons (List.infix_refl rest))
  intro s
  exact main s.length s le_rfl

/-- When the search string does not occur, replacement is the identity. -/
theorem replaceAllNE_of_no_occurrence (sh : Char) (st repl : Str) :
    ∀ s : Str, ¬ (sh :: st) <:+: s → replaceAllNE sh st repl s = s := by
  have main : ∀ n : Nat, ∀ s : Str, s.length ≤ n →
      ¬ (sh :: st) <:+: s → replaceAllNE sh st repl s = s := by
    intro n
    induction n with
    | zero =>
      intro s hs _
      have : s = [] := List.length_eq_zero.mp (Nat.le_zero.mp hs)
      subst this
      simp [replaceAllNE_nil]
    | succ n ih =>
      intro s hs h
      match s with
      | [] => simp [replaceAllNE_nil]
      | c :: rest =>
        rw [replaceAllNE_cons]
        by_cases hp : (sh :: st).isPrefixOf (c :: rest) = true
        · exfalso
          rw [List.isPrefixOf_iff_prefix] at hp
          exact h hp.isInfix
        · rw [if_neg hp]
          have hlen : rest.length ≤ n := by
            simp only [List.length_cons] at hs
            omega
          have : ¬ (sh :: st) <:+: rest := fun hi =>
            h (hi.trans (List.infix_cons (List.infix_refl rest)))
          rw [ih rest hlen this]
  intro s
  exact main s.length s le_rfl

/-- When the (non-empty) search string does not occur, its count is zero. -/
theorem countOccNE_of_no_occurrence (sh : Char) (st : Str) (s : Str)
    (h : ¬ (sh :: st) <:+: s) : countOccNE sh st s = 0 := by
  by_contra hne
  exact h (infix_of_countOccNE_ne_zero sh st s hne)

/-- Numeric value of a digit string (Go `strconv.Atoi` on an all-digit
input, with the error discarded as in the source). -/
def natOfDigits (ds : Str) : Nat := ds.foldl (fun n c => n * 10 + (c.toNat - 48)) 0

/-- Decimal rendering of a natural number (Go `fmt.Sprintf` `%d`). -/
def natDigits (n : Nat) : Str := (Nat.repr n).data

/-- Decimal rendering of an integer (Go `fmt.Sprintf` `%d`). -/
def intStr (i : Int) : Str :=
  if i < 0 then '-' :: natDigits i.natAbs else natDigits i.natAbs

/-- Lazy content scan of the pattern `s:(\d+):"((?:[^"\\]|\\.)*?)";` after
the opening quote: at each position the terminator `";` is tried first
(lazy `*?`); otherwise one unit is consumed, either a character other than
`"` and `\` or a backslash followed by any character except newline.
Returns the content group and the remainder after the terminator. -/
def matchContentU : Str → Option (Str × Str)
  | [] => none
  | c :: rest =>
    if c = '"' then
      match rest with
      | [] => none
      | d :: t => if d = ';' then some ([], t) else none
    else if c = '\\' then
      match rest with
      | [] => none
      | d :: t =>
        if d = '\n' then none
        else (matchContentU t).map (fun p => ('\\' :: d :: p.1, p.2))
    else
      (matchContentU rest).map (fun p => (c :: p.1, p.2))

/-- Content scan for the escaped-quote variant `s:(\d+):\\"...\\";`: the
terminator is `\";`, tried lazily before the `\\.` unit. -/
def matchContentE : Str → Option (Str × Str)
  | [] => none
  | c :: rest =>
    if c = '\\' then
      match rest with
      | [] => none
      | d :: t =>
        if d = '"' then
          match t with
          | [] => (matchContentE t).map (fun p => ('\\' :: '"' :: p.1, p.2))
          | e :: u =>
            if e = ';' then some ([], u)
            else (matchContentE t).map (fun p => ('\\' :: '"' :: p.1, p.2))
        else if d = '\n' then none
        else (matchContentE t).map (fun p => ('\\' :: d :: p.1, p.2))
    else if c = '"' then none
    else (matchContentE rest).map (fun p => (c :: p.1, p.2))

theorem matchContentU_spec :
    ∀ s ct r, matchContentU s = some (ct, r) → s = ct ++ '"' :: ';' :: r := by
  have main : ∀ n : Nat, ∀ s : Str, s.length ≤ n → ∀ ct r,
      matchContentU s = some (ct, r) → s = ct ++ '"' :: ';' :: r := by
    intro n
    induction n with
    | zero =>
      intro s hs ct r h
      have : s = [] := List.length_eq_zero.mp (Nat.le_zero.mp hs)
      subst this
      simp [matchContentU] at h
    | succ n ih =>
      intro s hs ct r h
      match s with
      | [] => simp [matchContentU] at h
      | [c] =>
        rw [matchContentU.eq_2] at h
        split_ifs at h <;> simp_all [matchContentU]
      | c :: d :: t =>
        rw [matchContentU.eq_3] at h
        by_cases hq : c = '"'
        · rw [if_pos hq] at h
          by_cases hd : d = ';'
          · rw [if_pos hd] at h
            simp only [Option.some.injEq, Prod.mk.injEq] at h
            obtain ⟨h1, h2⟩ := h
            subst h1
            subst h2
            rw [hq, hd]
            rfl
          · rw [if_neg hd] at h
            simp at h
        · rw [if_neg hq] at h
          by_cases hb : c = '\\'
          · rw [if_pos hb] at h
            by_cases hn : d = '\n'
            · rw [if_pos hn] at h
              simp at h
            · rw [if_neg hn, Option.map_eq_some'] at h
              rcases h with ⟨⟨ct', r'⟩, hm, heq⟩
              simp only [Prod.mk.injEq] at heq
              obtain ⟨h1, h2⟩ := heq
              subst h1
              subst h2
              have hlen : t.length ≤ n := by
                simp only [List.length_cons] at hs
                omega
              rw [hb]
              simp [ih t hlen ct' r' hm]
          · rw [if_neg hb, Option.map_eq_some'] at h
            rcases h with ⟨⟨ct', r'⟩, hm, heq⟩
            simp only [Prod.mk.injEq] at heq
            obtain ⟨h1, h2⟩ := heq
            subst h1
            subst h2
            have hlen : (d :: t).length ≤ n := by
              simp only [List.length_cons] at hs ⊢
              omega
            simp [ih (d :: t) hlen ct' r' hm]
  intro s
  exact main s.length s le_rfl

theorem matchContentE_spec :
    ∀ s ct r, matchContentE s = some (ct, r) → s = ct ++ '\\' :: '"' :: ';' :: r := by
  have main : ∀ n : Nat, ∀ s : Str, s.length ≤ n → ∀ ct r,
      matchContentE s = some (ct, r) → s = ct ++ '\\' :: '"' :: ';' :: r := by
    intro n
    induction n with
    | zero =>
      intro s hs ct r h
      have : s = [] := List.length_eq_zero.mp (Nat.le_zero.mp hs)
      subst this
      simp [matchContentE] at h
    | succ n ih =>
      intro s hs ct r h
      match s with
      | [] => simp [matchContentE] at h
      | [c] =>
        rw [matchContentE.eq_2] at h
        split_ifs at h <;> simp_all [matchContentE]
      | [c, d] =>
        rw [matchContentE.eq_3] at h
        split_ifs at h <;> simp_all [matchContentE]
      | c :: d :: e :: u =>
        rw [matchContentE.eq_4] at h
        by_cases hb : c = '\\'
        · rw [if_pos hb] at h
          by_cases hd : d = '"'
          · rw [if_pos hd] at h
            by_cases he : e = ';'
            · rw [if_pos he] at h
              simp only [Option.some.injEq, Prod.mk.injEq] at h
              obtain ⟨h1, h2⟩ := h
              subst h1
              subst h2
              rw [hb, hd, he]
              rfl
            · rw [if_neg he, Option.map_eq_some'] at h
              rcases h with ⟨⟨ct', r'⟩, hm, heq⟩
              simp only [Prod.mk.injEq] at heq
              obtain ⟨h1, h2⟩ := heq
              subst h1
              subst h2
              have hlen : (e :: u).length ≤ n := by
                simp only [List.length_cons] at hs ⊢
                omega
              rw [hb, hd]
              simp [ih (e :: u) hlen ct' r' hm]
          · rw [if_neg hd] at h
            by_cases hn : d = '\n'
            · rw [if_pos hn] at h
              simp at h
            · rw [if_neg hn, Option.map_eq_some'] at h
              rcases h with ⟨⟨ct', r'⟩, hm, heq⟩
              simp only [Prod.mk.injEq] at heq
              obtain ⟨h1, h2⟩ := heq
              subst h1
              subst h2
              have hlen : (e :: u).length ≤ n := by
                simp only [List.length_cons] at hs ⊢
                omega
              rw [hb]
              simp [ih (e :: u) hlen ct' r' hm]
        · rw [if_neg hb] at h
          by_cases hq : c = '"'
          · rw [if_pos hq] at h
            simp at h
          · rw [if_neg hq, Option.map_eq_some'] at h
            rcases h with ⟨⟨ct', r'⟩, hm, heq⟩
            simp only [Prod.mk.injEq] at heq
            obtain ⟨h1, h2⟩ := heq
            subst h1
            subst h2
            have hlen : (d :: e :: u).length ≤ n := by
              simp only [List.length_cons] at hs ⊢
              omega
            simp [ih (d :: e :: u) hlen ct' r' hm]
  intro s
  exact main s.length s le_rfl

/-- Remainder after the `:"` that follows the digit group in the unescaped
pattern. -/
def expectColonQuote : Str → Option Str
  | e :: f :: r2 => if e = ':' then if f = '"' then some r2 else none else none
  | _ => none

/-- Remainder after the `:\"` that follows the digit group in the
escaped-quote pattern. -/
def expectColonEscQuote : Str → Option Str
  | e :: f :: g :: r2 =>
    if e = ':' then if f = '\\' then if g = '"' then some r2 else none else none
    else none
  | _ => none

/-- Leftmost-first match of `s:(\d+):"content";` at the head of the input:
returns the digit group, the content group, and the remainder after the
match. -/
def matchSerialU (s : Str) : Option (Str × Str × Str) :=
  match s with
  | a :: b :: rest =>
    if a = 's' then
      if b = ':' then
        if (rest.takeWhile Char.isDigit).isEmpty then none
        else
          (expectColonQuote (rest.drop (rest.takeWhile Char.isDigit).length)).bind
            (fun r2 =>
              (matchContentU r2).map (fun p => (rest.takeWhile Char.isDigit, p.1, p.2)))
      else none
    else none
  | _ => none

/-- Leftmost-first match of the escaped variant `s:(\d+):\"content\";` at
the head of the input. -/
def matchSerialE (s : Str) : Option (Str × Str × Str) :=
  match s with
  | a :: b :: rest =>
    if a = 's' then
      if b = ':' then
        if (rest.takeWhile Char.isDigit).isEmpty then none
        else
          (expectColonEscQuote (rest.drop (rest.takeWhile Char.isDigit).length)).bind
            (fun r2 =>
              (matchContentE r2).map (fun p => (rest.takeWhile Char.isDigit, p.1, p.2)))
      else none
    else none
  | _ => none

/-- The text of an unescaped serialized string with digit group `ds` and
content `ct`, exactly as matched. -/
def origSerialU (ds ct : Str) : Str :=
  's' :: ':' :: (ds ++ ':' :: '"' :: (ct ++ '"' :: ';' :: []))

/-- The text of an escaped-variant serialized string as matched. -/
def origSerialE (ds ct : Str) : Str :=
  's' :: ':' :: (ds ++ ':' :: '\\' :: '"' :: (ct ++ '\\' :: '"' :: ';' :: []))

theorem expectColonQuote_spec :
    ∀ x r2, expectColonQuote x = some r2 → x = ':' :: '"' :: r2 := by
  intro x r2 h
  match x with
  | [] => simp [expectColonQuote] at h
  | [e] => simp [expectColonQuote] at h
  | e :: f :: t =>
    rw [expectColonQuote] at h
    split_ifs at h with h1 h2 <;> simp_all

theorem expectColonEscQuote_spec :
    ∀ x r2, expectColonEscQuote x = some r2 → x = ':' :: '\\' :: '"' :: r2 := by
  intro x r2 h
  match x with
  | [] => simp [expectColonEscQuote] at h
  | [e] => simp [expectColonEscQuote] at h
  | [e, f] => simp [expectColonEscQuote] at h
  | e :: f :: g :: t =>
    rw [expectColonEscQuote] at h
    split_ifs at h with h1 h2 h3 <;> simp_all

theorem matchSerialU_spec {s ds ct r : Str}
    (h : matchSerialU s = some (ds, ct, r)) : s = origSerialU ds ct ++ r := by
  match s with
  | [] => simp [matchSerialU] at h
  | [a] => simp [matchSerialU] at h
  | a :: b :: rest =>
    rw [matchSerialU] at h
    split_ifs at h with ha hb hds
    simp only [Option.bind_eq_some, Option.map_eq_some'] at h
    rcases h with ⟨r2, hq, ⟨ct', r'⟩, hm, heq⟩
    simp only [Prod.mk.injEq] at heq
    obtain ⟨h1, h2, h3⟩ := heq
    subst h1
    subst h2
    subst h3
    have hpre : rest.takeWhile Char.isDigit <+: rest := List.takeWhile_prefix _
    have hrest : rest =
        rest.takeWhile Char.isDigit ++ rest.drop (rest.takeWhile Char.isDigit).length := by
      conv_lhs => rw [← List.take_append_drop (rest.takeWhile Char.isDigit).length rest]
      rw [← List.prefix_iff_eq_take.mp hpre]
    rw [ha, hb, origSerialU]
    conv_lhs => rw [hrest]
    rw [expectColonQuote_spec _ _ hq, matchContentU_spec _ _ _ hm]
    simp

theorem matchSerialE_spec {s ds ct r : Str}
    (h : matchSerialE s = some (ds, ct, r)) : s = origSerialE ds ct ++ r := by
  match s with
  | [] => simp [matchSerialE] at h
  | [a] => simp [matchSerialE] at h
  | a :: b :: rest =>
    rw [matchSerialE] at h
    split_ifs at h with ha hb hds
    simp only [Option.bind_eq_some, Option.map_eq_some'] at h
    rcases h with ⟨r2, hq, ⟨ct', r'⟩, hm, heq⟩
    simp only [Prod.mk.injEq] at heq
    obtain ⟨h1, h2, h3⟩ := heq
    subst h1
    subst h2
    subst h3
    have hpre : rest.takeWhile Char.isDigit <+: rest := List.takeWhile_prefix _
    have hrest : rest =
        rest.takeWhile Char.isDigit ++ rest.drop (rest.takeWhile Char.isDigit).length := by
      conv_lhs => rw [← List.take_append_drop (rest.takeWhile Char.isDigit).length rest]
      rw [← List.prefix_iff_eq_take.mp hpre]
    rw [ha, hb, origSerialE]
    conv_lhs => rw [hrest]
    rw [expectColonEscQuote_spec _ _ hq, matchContentE_spec _ _ _ hm]
    simp

theorem origSerialU_length (ds ct : Str) :
    (origSerialU ds ct).length = ds.length + ct.length + 6 := by
  simp [origSerialU]
  omega

theorem origSerialE_length (ds ct : Str) :
    (origSerialE ds ct).length = ds.length + ct.length + 8 := by
  simp [origSerialE]
  omega

theorem matchSerialU_rest_lt {s ds ct r : Str}
    (h : matchSerialU s = some (ds, ct, r)) : r.length < s.length := by
  have := matchSerialU_spec h
  subst this
  simp only [List.length_append, origSerialU_length]
  omega

theorem matchSerialE_rest_lt {s ds ct r : Str}
    (h : matchSerialE s = some (ds, ct, r)) : r.length < s.length := by
  have := matchSerialE_spec h
  subst this
  simp only [List.length_append, origSerialE_length]
  omega

/-- Structural worker for the unescaped replacement pass; the `Nat`
argument counts characters of an already-emitted match still to skip. -/
def serialPassAuxU (f : Str → Str → Str) : Str → Nat → Str
  | [], _ => []
  | _ :: rest, skip + 1 => serialPassAuxU f rest skip
  | c :: rest, 0 =>
    match matchSerialU (c :: rest) with
    | some (ds, ct, _) => f ds ct ++ serialPassAuxU f rest (ds.length + ct.length + 5)
    | none => c :: serialPassAuxU f rest 0

/-- One pass of `regexp.ReplaceAllStringFunc` for the unescaped pattern:
scan left to right, replace each leftmost non-overlapping match by
`f digits content`, copy everything else verbatim. -/
def serialPassU (f : Str → Str → Str) (s : Str) : Str := serialPassAuxU f s 0

/-- Structural worker for the escaped replacement pass. -/
def serialPassAuxE (f : Str → Str → Str) : Str → Nat → Str
  | [], _ => []
  | _ :: rest, skip + 1 => serialPassAuxE f rest skip
  | c :: rest, 0 =>
    match matchSerialE (c :: rest) with
    | some (ds, ct, _) => f ds ct ++ serialPassAuxE f rest (ds.length + ct.length + 7)
    | none => c :: serialPassAuxE f rest 0

/-- One pass of `regexp.ReplaceAllStringFunc` for the escaped pattern. -/
def serialPassE (f : Str → Str → Str) (s : Str) : Str := serialPassAuxE f s 0

/-- Structural worker collecting the unescaped match groups. -/
def serialMatchesAuxU : Str → Nat → List (Str × Str)
  | [], _ => []
  | _ :: rest, skip + 1 => serialMatchesAuxU rest skip
  | c :: rest, 0 =>
    match matchSerialU (c :: rest) with
    | some (ds, ct, _) => (ds, ct) :: serialMatchesAuxU rest (ds.length + ct.length + 5)
    | none => serialMatchesAuxU rest 0

/-- The (digits, content) groups of the leftmost non-overlapping unescaped
matches of a line, in order (`regexp.FindAllString` semantics). -/
def serialMatchesU (s : Str) : List (Str × Str) := serialMatchesAuxU s 0

/-- Structural worker collecting the escaped match groups. -/
def serialMatchesAuxE : Str → Nat → List (Str × Str)
  | [], _ => []
  | _ :: rest, skip + 1 => serialMatchesAuxE rest skip
  | c :: rest, 0 =>
    match matchSerialE (c :: rest) with
    | some (ds, ct, _) => (ds, ct) :: serialMatchesAuxE rest (ds.length + ct.length + 7)
    | none => serialMatchesAuxE rest 0

/-- Escaped-variant analogue of `serialMatchesU`. -/
def serialMatchesE (s : Str) : List (Str × Str) := serialMatchesAuxE s 0

theorem serialPassAuxU_skip (f : Str → Str → Str) :
    ∀ s : Str, ∀ k : Nat, serialPassAuxU f s k = serialPassAuxU f (s.drop k) 0 := by
  intro s
  induction s with
  | nil => intro k; simp [serialPassAuxU]
  | cons c rest ih =>
    intro k
    match k with
    | 0 => rfl
    | k + 1 =>
      show serialPassAuxU f rest k = _
      rw [ih k]
      rfl

theorem serialPassAuxE_skip (f : Str → Str → Str) :
    ∀ s : Str, ∀ k : Nat, serialPassAuxE f s k = serialPassAuxE f (s.drop k) 0 := by
  intro s
  induction s with
  | nil => intro k; simp [serialPassAuxE]
  | cons c rest ih =>
    intro k
    match k with
    | 0 => rfl
    | k + 1 =>
      show serialPassAuxE f rest k = _
      rw [ih k]
      rfl

theorem serialMatchesAuxU_skip :
    ∀ s : Str, ∀ k : Nat, serialMatchesAuxU s k = serialMatchesAuxU (s.drop k) 0 := by
  intro s
  induction s with
  | nil => intro k; simp [serialMatchesAuxU]
  | cons c rest ih =>
    intro k
    match k with
    | 0 => rfl
    | k + 1 =>
      show serialMatchesAuxU rest k = _
      rw [ih k]
      rfl

theorem serialMatchesAuxE_skip :
    ∀ s : Str, ∀ k : Nat, serialMatchesAuxE s k = serialMatchesAuxE (s.drop k) 0 := by
  intro s
  induction s with
  | nil => intro k; simp [serialMatchesAuxE]
  | cons c rest ih =>
    intro k
    match k with
    | 0 => rfl
    | k + 1 =>
      show serialMatchesAuxE rest k = _
      rw [ih k]
      rfl

theorem matchSerialU_tail {c : Char} {rest ds ct after : Str}
    (h : matchSerialU (c :: rest) = some (ds, ct, after)) :
    rest.drop (ds.length + ct.length + 5) = after := by
  have hspec := matchSerialU_spec h
  have hrest : rest = (':' :: (ds ++ ':' :: '"' :: (ct ++ '"' :: ';' :: []))) ++ after := by
    have := congrArg List.tail hspec
    simpa [origSerialU] using this
  have hlen : (':' :: (ds ++ ':' :: '"' :: (ct ++ '"' :: ';' :: []))).length =
      ds.length + ct.length + 5 := by
    simp
    omega
  rw [hrest, ← hlen, List.drop_left]

theorem matchSerialE_tail {c : Char} {rest ds ct after : Str}
    (h : matchSerialE (c :: rest) = some (ds, ct, after)) :
    rest.drop (ds.length + ct.length + 7) = after := by
  have hspec := matchSerialE_spec h
  have hrest : rest =
      (':' :: (ds ++ ':' :: '\\' :: '"' :: (ct ++ '\\' :: '"' :: ';' :: []))) ++ after := by
    have := congrArg List.tail hspec
    simpa [origSerialE] using this
  have hlen : (':' :: (ds ++ ':' :: '\\' :: '"' :: (ct ++ '\\' :: '"' :: ';' :: []))).length =
      ds.length + ct.length + 7 := by
    simp
    omega
  rw [hrest, ← hlen, List.drop_left]

/-- Rebuilt unescaped serialized string with a recomputed byte count, as
printed by `fmt.Sprintf` with `%d` (the count may be negative in Go). -/
def mkSerialU (n : Int) (ct : Str) : Str :=
  's' :: ':' :: (intStr n ++ ':' :: '"' :: (ct ++ '"' :: ';' :: []))

/-- Rebuilt escaped-variant serialized string. -/
def mkSerialE (n : Int) (ct : Str) : Str :=
  's' :: ':' :: (intStr n ++ ':' :: '\\' :: '"' :: (ct ++ '\\' :: '"' :: ';' :: []))

/-- The replacement emitted for one unescaped match in literal mode
(the `fixSerial` closure of `resilientReplaceLiteral`): if the search
string does not occur in the content the match is emitted verbatim,
otherwise the content is rewritten and the byte count adjusted by
`count × (bytes(replace) − bytes(search))`. -/
def fixSerialLitU (search repl : Str) (ds ct : Str) : Str :=
  if goCount search ct = 0 then origSerialU ds ct
  else
    mkSerialU
      ((natOfDigits ds : Int) +
        (goCount search ct : Int) * ((byteLen repl : Int) - (byteLen search : Int)))
      (goReplaceAll search repl ct)

/-- Escaped-variant analogue of `fixSerialLitU`. -/
def fixSerialLitE (search repl : Str) (ds ct : Str) : Str :=
  if goCount search ct = 0 then origSerialE ds ct
  else
    mkSerialE
      ((natOfDigits ds : Int) +
        (goCount search ct : Int) * ((byteLen repl : Int) - (byteLen search : Int)))
      (goReplaceAll search repl ct)

/-- `resilientReplaceLiteral` from `internal/sync`: the serialized-aware
pass for the unescaped pattern, then the pass for the escaped pattern, then
(unless `OnlyIntoSerialized` is set) a plain-text `strings.ReplaceAll`
over the whole line. -/
def resilientReplaceLiteral (search repl line : Str) (onlyIntoSerialized : Bool) : Str :=
  let r1 := serialPassU (fixSerialLitU search repl) line
  let r2 := serialPassE (fixSerialLitE search repl) r1
  if onlyIntoSerialized then r2 else goReplaceAll search repl r2

/-- Byte-count consistency of every serialized substring of a line, for
both the unescaped and the escaped form: each matched digit group denotes
the byte length of its content group. -/
def serialConsistent (line : Str) : Bool :=
  (serialMatchesU line).all (fun p => natOfDigits p.1 == byteLen p.2) &&
  (serialMatchesE line).all (fun p => natOfDigits p.1 == byteLen p.2)

/-- All serialized byte counts of a line are written in canonical decimal
(no leading zeros). -/
def canonicalSerialCounts (line : Str) : Bool :=
  (serialMatchesU line).all (fun p => p.1 == natDigits (natOfDigits p.1)) &&
  (serialMatchesE line).all (fun p => p.1 == natDigits (natOfDigits p.1))

/-- The value `math.MaxInt64`, at which `strconv.Atoi` saturates on a
64-bit platform. -/
def maxInt64 : Nat := 9223372036854775807

/-- The count parse performed by the rewriter closure
(`origN, _ := strconv.Atoi(sub[1])`): the error is discarded, and on
`ErrRange` Go returns the clamped value, so a digit run parses to its
exact decimal value saturated at `math.MaxInt64`. -/
def atoiSat (ds : Str) : Nat := min (natOfDigits ds) maxInt64

/-- All serialized byte counts of a line are parsed exactly by
`strconv.Atoi`: the saturating parse agrees with the exact decimal value,
i.e. every matched count is at most `math.MaxInt64`.  A count above
`math.MaxInt64` is clamped by `strconv.Atoi` and rewritten to
`9223372036854775807` whenever its content contains the search string. -/
def boundedSerialCounts (line : Str) : Bool :=
  (serialMatchesU line).all (fun p => atoiSat p.1 == natOfDigits p.1) &&
  (serialMatchesE line).all (fun p => atoiSat p.1 == natOfDigits p.1)


theorem serialPassU_cons_some {f : Str → Str → Str} {c : Char} {rest ds ct after : Str}
    (h : matchSerialU (c :: rest) = some (ds, ct, after)) :
    serialPassU f (c :: rest) = f ds ct ++ serialPassU f after := by
  show serialPassAuxU f (c :: rest) 0 = _
  rw [serialPassAuxU, h]
  show f ds ct ++ serialPassAuxU f rest (ds.length + ct.length + 5) = _
  rw [serialPassAuxU_skip, matchSerialU_tail h]
  rfl

theorem serialPassU_cons_none {f : Str → Str → Str} {c : Char} {rest : Str}
    (h : matchSerialU (c :: rest) = none) :
    serialPassU f (c :: rest) = c :: serialPassU f rest := by
  show serialPassAuxU f (c :: rest) 0 = _
  rw [serialPassAuxU, h]
  rfl

theorem serialPassE_cons_some {f : Str → Str → Str} {c : Char} {rest ds ct after : Str}
    (h : matchSerialE (c :: rest) = some (ds, ct, after)) :
    serialPassE f (c :: rest) = f ds ct ++ serialPassE f after := by
  show serialPassAuxE f (c :: rest) 0 = _
  rw [serialPassAuxE, h]
  show f ds ct ++ serialPassAuxE f rest (ds.length + ct.length + 7) = _
  rw [serialPassAuxE_skip, matchSerialE_tail h]
  rfl

theorem serialPassE_cons_none {f : Str → Str → Str} {c : Char} {rest : Str}
    (h : matchSerialE (c :: rest) = none) :
    serialPassE f (c :: rest) = c :: serialPassE f rest := by
  show serialPassAuxE f (c :: rest) 0 = _
  rw [serialPassAuxE, h]
  rfl

theorem serialMatchesU_cons_some {c : Char} {rest ds ct after : Str}
    (h : matchSerialU (c :: rest) = some (ds, ct, after)) :
    serialMatchesU (c :: rest) = (ds, ct) :: serialMatchesU after := by
  show serialMatchesAuxU (c :: rest) 0 = _
  rw [serialMatchesAuxU, h]
  show (ds, ct) :: serialMatchesAuxU rest (ds.length + ct.length + 5) = _
  rw [serialMatchesAuxU_skip, matchSerialU_tail h]
  rfl

theorem serialMatchesU_cons_none {c : Char} {rest : Str}
    (h : matchSerialU (c :: rest) = none) :
    serialMatchesU (c :: rest) = serialMatchesU rest := by
  show serialMatchesAuxU (c :: rest) 0 = _
  rw [serialMatchesAuxU, h]
  rfl

theorem serialMatchesE_cons_some {c : Char} {rest ds ct after : Str}
    (h : matchSerialE (c :: rest) = some (ds, ct, after)) :
    serialMatchesE (c :: rest) = (ds, ct) :: serialMatchesE after := by
  show serialMatchesAuxE (c :: rest) 0 = _
  rw [serialMatchesAuxE, h]
  show (ds, ct) :: serialMatchesAuxE rest (ds.length + ct.length + 7) = _
  rw [serialMatchesAuxE_skip, matchSerialE_tail h]
  rfl

theorem serialMatchesE_cons_none {c : Char} {rest : Str}
    (h : matchSerialE (c :: rest) = none) :
    serialMatchesE (c :: rest) = serialMatchesE rest := by
  show serialMatchesAuxE (c :: rest) 0 = _
  rw [serialMatchesAuxE, h]
  rfl

/-- Byte-length bookkeeping for the full `strings.ReplaceAll`, including
the empty-search case. -/
theorem byteLen_goReplaceAll (search repl s : Str) :
    (byteLen (goReplaceAll search repl s) : Int) =
      (byteLen s : Int) +
        (goCount search s : Int) * ((byteLen repl : Int) - (byteLen search : Int)) := by
  match search with
  | [] =>
    show (byteLen (repl ++ s.foldr (fun c acc => c :: (repl ++ acc)) []) : Int) = _
    have hfold : ∀ t : Str,
        byteLen (t.foldr (fun c acc => c :: (repl ++ acc)) []) =
          byteLen t + t.length * byteLen repl := by
      intro t
      induction t with
      | nil => simp [byteLen]
      | cons c rest ih =>
        simp only [List.foldr_cons, byteLen_cons, byteLen_append, ih, List.length_cons]
        ring
    rw [byteLen_append, hfold s]
    show _ = (byteLen s : Int) + ((s.length + 1 : Nat) : Int) * ((byteLen repl : Int) - (byteLen ([] : Str) : Int))
    rw [byteLen_nil]
    push_cast
    ring
  | sh :: st =>
    exact byteLen_replaceAllNE sh st repl s

/-- If a per-match emitter reproduces each match verbatim, the pass is the
identity (unescaped pattern). -/
theorem serialPassU_congr_id (f : Str → Str → Str) :
    ∀ line : Str,
      (∀ p ∈ serialMatchesU line, f p.1 p.2 = origSerialU p.1 p.2) →
      serialPassU f line = line := by
  have main : ∀ n : Nat, ∀ line : Str, line.length ≤ n →
      (∀ p ∈ serialMatchesU line, f p.1 p.2 = origSerialU p.1 p.2) →
      serialPassU f line = line := by
    intro n
    induction n with
    | zero =>
      intro line hl _
      have : line = [] := List.length_eq_zero.mp (Nat.le_zero.mp hl)
      subst this
      rfl
    | succ n ih =>
      intro line hl hf
      match line with
      | [] => rfl
      | c :: rest =>
        cases hm : matchSerialU (c :: rest) with
        | some v =>
          obtain ⟨ds, ct, after⟩ := v
          rw [serialPassU_cons_some hm]
          have hmem := serialMatchesU_cons_some hm
          have h1 : f ds ct = origSerialU ds ct := by
            have := hf (ds, ct) (by rw [hmem]; exact List.mem_cons_self _ _)
            exact this
          have hlen : after.length ≤ n := by
            have := matchSerialU_rest_lt hm
            simp only [List.length_cons] at this hl
            omega
          have h2 : serialPassU f after = after := by
            refine ih after hlen ?_
            intro p hp
            exact hf p (by rw [hmem]; exact List.mem_cons_of_mem _ hp)
          rw [h1, h2, ← matchSerialU_spec hm]
        | none =>
          rw [serialPassU_cons_none hm]
          have hlen : rest.length ≤ n := by
            simp only [List.length_cons] at hl
            omega
          have h2 : serialPassU f rest = rest := by
            refine ih rest hlen ?_
            intro p hp
            exact hf p (by rw [serialMatchesU_cons_none hm]; exact hp)
          rw [h2]
  intro line
  exact main line.length line le_rfl

/-- If a per-match emitter reproduces each match verbatim, the pass is the
identity (escaped pattern). -/
theorem serialPassE_congr_id (f : Str → Str → Str) :
    ∀ line : Str,
      (∀ p ∈ serialMatchesE line, f p.1 p.2 = origSerialE p.1 p.2) →
      serialPassE f line = line := by
  have main : ∀ n : Nat, ∀ line : Str, line.length ≤ n →
      (∀ p ∈ serialMatchesE line, f p.1 p.2 = origSerialE p.1 p.2) →
      serialPassE f line = line := by
    intro n
    induction n with
    | zero =>
      intro line hl _
      have : line = [] := List.length_eq_zero.mp (Nat.le_zero.mp hl)
      subst this
      rfl
    | succ n ih =>
      intro line hl hf
      match line with
      | [] => rfl
      | c :: rest =>
        cases hm : matchSerialE (c :: rest) with
        | some v =>
          obtain ⟨ds, ct, after⟩ := v
          rw [serialPassE_cons_some hm]
          have hmem := serialMatchesE_cons_some hm
          have h1 : f ds ct = origSerialE ds ct := by
            have := hf (ds, ct) (by rw [hmem]; exact List.mem_cons_self _ _)
            exact this
          have hlen : after.length ≤ n := by
            have := matchSerialE_rest_lt hm
            simp only [List.length_cons] at this hl
            omega
          have h2 : serialPassE f after = after := by
            refine ih after hlen ?_
            intro p hp
            exact hf p (by rw [hmem]; exact List.mem_cons_of_mem _ hp)
          rw [h1, h2, ← matchSerialE_spec hm]
        | none =>
          rw [serialPassE_cons_none hm]
          have hlen : rest.length ≤ n := by
            simp only [List.length_cons] at hl
            omega
          have h2 : serialPassE f rest = rest := by
            refine ih rest hlen ?_
            intro p hp
            exact hf p (by rw [serialMatchesE_cons_none hm]; exact hp)
          rw [h2]
  intro line
  exact main line.length line le_rfl

/-- Every matched content group is a contiguous substring of the line
(unescaped pattern). -/
theorem serialMatchesU_content_sub :
    ∀ line : Str, ∀ p ∈ serialMatchesU line, p.2 <:+: line := by
  have main : ∀ n : Nat, ∀ line : Str, line.length ≤ n →
      ∀ p ∈ serialMatchesU line, p.2 <:+: line := by
    intro n
    induction n with
    | zero =>
      intro line hl p hp
      have : line = [] := List.length_eq_zero.mp (Nat.le_zero.mp hl)
      subst this
      simp [serialMatchesU, serialMatchesAuxU] at hp
    | succ n ih =>
      intro line hl p hp
      match line with
      | [] => simp [serialMatchesU, serialMatchesAuxU] at hp
      | c :: rest =>
        cases hm : matchSerialU (c :: rest) with
        | some v =>
          obtain ⟨ds, ct, after⟩ := v
          rw [serialMatchesU_cons_some hm] at hp
          rcases List.mem_cons.mp hp with hp | hp
          · subst hp
            rw [matchSerialU_spec hm, origSerialU]
            refine ⟨'s' :: ':' :: (ds ++ [':', '"']), '"' :: ';' :: after, ?_⟩
            simp
          · have hlen : after.length ≤ n := by
              have := matchSerialU_rest_lt hm
              simp only [List.length_cons] at this hl
              omega
            have := ih after hlen p hp
            rw [matchSerialU_spec hm]
            exact this.trans (List.suffix_append _ _).isInfix
        | none =>
          rw [serialMatchesU_cons_none hm] at hp
          have hlen : rest.length ≤ n := by
            simp only [List.length_cons] at hl
            omega
          exact (ih rest hlen p hp).trans (List.infix_cons (List.infix_refl rest))
  intro line
  exact main line.length line le_rfl

/-- Every matched content group is a contiguous substring of the line
(escaped pattern). -/
theorem serialMatchesE_content_sub :
    ∀ line : Str, ∀ p ∈ serialMatchesE line, p.2 <:+: line := by
  have main : ∀ n : Nat, ∀ line : Str, line.length ≤ n →
      ∀ p ∈ serialMatchesE line, p.2 <:+: line := by
    intro n
    induction n with
    | zero =>
      intro line hl p hp
      have : line = [] := List.length_eq_zero.mp (Nat.le_zero.mp hl)
      subst this
      simp [serialMatchesE, serialMatchesAuxE] at hp
    | succ n ih =>
      intro line hl p hp
      match line with
      | [] => simp [serialMatchesE, serialMatchesAuxE] at hp
      | c :: rest =>
        cases hm : matchSerialE (c :: rest) with
        | some v =>
          obtain ⟨ds, ct, after⟩ := v
          rw [serialMatchesE_cons_some hm] at hp
          rcases List.mem_cons.mp hp with hp | hp
          · subst hp
            rw [matchSerialE_spec hm, origSerialE]
            refine ⟨'s' :: ':' :: (ds ++ [':', '\\', '"']), '\\' :: '"' :: ';' :: after, ?_⟩
            simp
          · have hlen : after.length ≤ n := by
              have := matchSerialE_rest_lt hm
              simp only [List.length_cons] at this hl
              omega
            have := ih after hlen p hp
            rw [matchSerialE_spec hm]
            exact this.trans (List.suffix_append _ _).isInfix
        | none =>
          rw [serialMatchesE_cons_none hm] at hp
          have hlen : rest.length ≤ n := by
            simp only [List.length_cons] at hl
            omega
          exact (ih rest hlen p hp).trans (List.infix_cons (List.infix_refl rest))
  intro line
  exact main line.length line le_rfl

/-- Rendering a natural number through the integer printer drops no sign. -/
theorem intStr_ofNat (n : Nat) : intStr (n : Int) = natDigits n := by
  rw [intStr, if_neg (by omega)]
  simp


theorem fixSerialLitU_self (search ds ct : Str)
    (hcanon : ds = natDigits (natOfDigits ds)) :
    fixSerialLitU search search ds ct = origSerialU ds ct := by
  rw [fixSerialLitU]
  by_cases h0 : goCount search ct = 0
  · rw [if_pos h0]
  · rw [if_neg h0, goReplaceAll_self]
    have harith : (natOfDigits ds : Int) +
        (goCount search ct : Int) * ((byteLen search : Int) - (byteLen search : Int)) =
        ((natOfDigits ds : Nat) : Int) := by ring
    rw [harith, mkSerialU, intStr_ofNat, ← hcanon, origSerialU]

theorem fixSerialLitE_self (search ds ct : Str)
    (hcanon : ds = natDigits (natOfDigits ds)) :
    fixSerialLitE search search ds ct = origSerialE ds ct := by
  rw [fixSerialLitE]
  by_cases h0 : goCount search ct = 0
  · rw [if_pos h0]
  · rw [if_neg h0, goReplaceAll_self]
    have harith : (natOfDigits ds : Int) +
        (goCount search ct : Int) * ((byteLen search : Int) - (byteLen search : Int)) =
        ((natOfDigits ds : Nat) : Int) := by ring
    rw [harith, mkSerialE, intStr_ofNat, ← hcanon, origSerialE]

/-- C2 counterexample: with both passes enabled, the plain-text pass can
rewrite the digits of a byte count.  The pair `("1", "2")` applied to the
consistent line `s:1:"a";` yields `s:2:"a";`, which is inconsistent. -/
theorem C2_counterexample :
    serialConsistent (("s:1:\"a\";" : String).data) = true ∧
    serialConsistent
        (resilientReplaceLiteral (("1" : String).data) (("2" : String).data)
          (("s:1:\"a\";" : String).data) false) = false := by
  constructor
  · decide
  · decide

/-- C2 (amended): every serialized substring matched and rewritten by the
serialized-aware pass of `resilientReplaceLiteral` is emitted with a byte
count equal to the byte length of its new content, provided the matched
substring itself satisfied `N = bytes(C)`: the emitted segment is either
the original match verbatim or the rebuilt form whose written count is
exactly `bytes` of the replaced content.  (The whole-line invariant of the
claim fails once the plain-text pass runs, per `C2_counterexample`.) -/
theorem C2_serial_pass_consistency (search repl ds ct : Str)
    (h : natOfDigits ds = byteLen ct) :
    (fixSerialLitU search repl ds ct = origSerialU ds ct ∨
      fixSerialLitU search repl ds ct =
        mkSerialU ((byteLen (goReplaceAll search repl ct) : Int))
          (goReplaceAll search repl ct)) ∧
    (fixSerialLitE search repl ds ct = origSerialE ds ct ∨
      fixSerialLitE search repl ds ct =
        mkSerialE ((byteLen (goReplaceAll search repl ct) : Int))
          (goReplaceAll search repl ct)) := by
  constructor
  · rw [fixSerialLitU]
    by_cases h0 : goCount search ct = 0
    · left
      rw [if_pos h0]
    · right
      rw [if_neg h0]
      congr 1
      rw [h, byteLen_goReplaceAll]
  · rw [fixSerialLitE]
    by_cases h0 : goCount search ct = 0
    · left
      rw [if_pos h0]
    · right
      rw [if_neg h0]
      congr 1
      rw [h, byteLen_goReplaceAll]

/-- C2 witness: the amended consistency theorem applied at the concrete
match `s:5:"hello";` with pair `(hello, world)`. -/
theorem C2_witness :
    natOfDigits (("5" : String).data) = byteLen (("hello" : String).data) ∧
    ((fixSerialLitU (("hello" : String).data) (("world" : String).data)
        (("5" : String).data) (("hello" : String).data) =
        origSerialU (("5" : String).data) (("hello" : String).data) ∨
      fixSerialLitU (("hello" : String).data) (("world" : String).data)
        (("5" : String).data) (("hello" : String).data) =
        mkSerialU
          ((byteLen (goReplaceAll (("hello" : String).data) (("world" : String).data)
            (("hello" : String).data)) : Int))
          (goReplaceAll (("hello" : String).data) (("world" : String).data)
            (("hello" : String).data))) ∧
    (fixSerialLitE (("hello" : String).data) (("world" : String).data)
        (("5" : String).data) (("hello" : String).data) =
        origSerialE (("5" : String).data) (("hello" : String).data) ∨
      fixSerialLitE (("hello" : String).data) (("world" : String).data)
        (("5" : String).data) (("hello" : String).data) =
        mkSerialE
          ((byteLen (goReplaceAll (("hello" : String).data) (("world" : String).data)
            (("hello" : String).data)) : Int))
          (goReplaceAll (("hello" : String).data) (("world" : String).data)
            (("hello" : String).data)))) :=
  ⟨by decide,
    C2_serial_pass_consistency (("hello" : String).data) (("world" : String).data)
      (("5" : String).data) (("hello" : String).data) (by decide)⟩

/-- C3: for a serialized value whose content holds `k ≥ 2` occurrences of
the search string, the literal rewriter emits the byte count
`N + k × (bytes(replace) − bytes(search))`, counting every occurrence; in
particular `s:6:"aa baa";` with pair `(aa, z)` becomes `s:4:"z bz";`. -/
theorem C3_multi_occurrence :
    (∀ search repl ds ct : Str, ∀ k : Nat,
      goCount search ct = k → 2 ≤ k →
      fixSerialLitU search repl ds ct =
        mkSerialU
          ((natOfDigits ds : Int) +
            (k : Int) * ((byteLen repl : Int) - (byteLen search : Int)))
          (goReplaceAll search repl ct)) ∧
    resilientReplaceLiteral (("aa" : String).data) (("z" : String).data)
        (("s:6:\"aa baa\";" : String).data) false =
      (("s:4:\"z bz\";" : String).data) := by
  constructor
  · intro search repl ds ct k hk h2
    have h0 : ¬ goCount search ct = 0 := by
      rw [hk]
      omega
    rw [fixSerialLitU, if_neg h0, hk]
  · decide

/-- C3 witness: the multi-occurrence count formula applied at the concrete
serialized value `s:6:"aa baa";` with pair `(aa, z)` and `k = 2`. -/
theorem C3_witness :
    goCount (("aa" : String).data) (("aa baa" : String).data) = 2 ∧
    fixSerialLitU (("aa" : String).data) (("z" : String).data)
        (("6" : String).data) (("aa baa" : String).data) =
      mkSerialU
        ((natOfDigits (("6" : String).data) : Int) +
          (2 : Int) * ((byteLen (("z" : String).data) : Int) -
            (byteLen (("aa" : String).data) : Int)))
        (goReplaceAll (("aa" : String).data) (("z" : String).data)
          (("aa baa" : String).data)) :=
  ⟨by decide,
    C3_multi_occurrence.1 (("aa" : String).data) (("z" : String).data)
      (("6" : String).data) (("aa baa" : String).data) 2 (by decide) (by decide)⟩

/-- C5 counterexample: with an identity pair the rewriter is not the
identity on every line — a leading-zero byte count is rewritten to
canonical decimal: pair `(l, l)` on `s:05:"hello";` yields `s:5:"hello";`. -/
theorem C5_counterexample :
    resilientReplaceLiteral (("l" : String).data) (("l" : String).data)
        (("s:05:\"hello\";" : String).data) false ≠
      (("s:05:\"hello\";" : String).data) := by
  decide

/-- Within the bounded regime the saturating `strconv.Atoi` parse used by
the rewriter closure coincides with the exact decimal value of the digit
run, so the exact parse of `fixSerialLitU` and `fixSerialLitE` is the
program's parse there. -/
theorem atoiSat_eq_exact (ds : Str) (h : natOfDigits ds ≤ maxInt64) :
    atoiSat ds = natOfDigits ds := by
  rw [atoiSat]
  exact min_eq_left h

/-- C5 (amended): in literal mode, rewriting with `search = replace` yields
the input line unchanged provided every serialized byte count in the line
is written in canonical decimal (no leading zeros) and is at most
`math.MaxInt64`, so that the `strconv.Atoi` parse (whose error the source
discards) is exact.  Outside these bounds the rewrite is not the identity:
a non-canonical count is rewritten to canonical form when its content
contains the search string, and a count beyond `math.MaxInt64` is clamped
to `9223372036854775807` by `strconv.Atoi`. -/
theorem C5_identity_amended (search line : Str) (onlySer : Bool)
    (hcanon : canonicalSerialCounts line = true)
    (_hbound : boundedSerialCounts line = true) :
    resilientReplaceLiteral search search line onlySer = line := by
  rw [canonicalSerialCounts, Bool.and_eq_true, List.all_eq_true, List.all_eq_true] at hcanon
  obtain ⟨hU, hE⟩ := hcanon
  have h1 : serialPassU (fixSerialLitU search search) line = line := by
    refine serialPassU_congr_id _ line ?_
    intro p hp
    exact fixSerialLitU_self search p.1 p.2 (by simpa using hU p hp)
  have h2 : serialPassE (fixSerialLitE search search) line = line := by
    refine serialPassE_congr_id _ line ?_
    intro p hp
    exact fixSerialLitE_self search p.1 p.2 (by simpa using hE p hp)
  simp only [resilientReplaceLiteral, h1, h2]
  cases onlySer with
  | true => simp
  | false => simp [goReplaceAll_self]

/-- C5 witness: the amended identity theorem applied to the canonical,
int64-bounded line `s:5:"hello";` with the identity pair `(l, l)`. -/
theorem C5_witness :
    canonicalSerialCounts (("s:5:\"hello\";" : String).data) = true ∧
    boundedSerialCounts (("s:5:\"hello\";" : String).data) = true ∧
    resilientReplaceLiteral (("l" : String).data) (("l" : String).data)
        (("s:5:\"hello\";" : String).data) false =
      (("s:5:\"hello\";" : String).data) :=
  ⟨by decide, by decide,
    C5_identity_amended (("l" : String).data) (("s:5:\"hello\";" : String).data)
      false (by decide) (by decide)⟩


theorem countOccNE_ne_zero_of_occurs (sh : Char) (st : Str) :
    ∀ s : Str, (sh :: st) <:+: s → countOccNE sh st s ≠ 0 := by
  intro s
  induction s with
  | nil =>
    intro h
    exact absurd (List.infix_nil.mp h) (by simp)
  | cons c rest ih =>
    intro h
    rw [countOccNE_cons]
    by_cases hp : (sh :: st).isPrefixOf (c :: rest) = true
    · rw [if_pos hp]
      omega
    · rw [if_neg hp]
      rcases List.infix_cons_iff.mp h with h1 | h2
      · exact absurd (List.isPrefixOf_iff_prefix.mpr h1) hp
      · exact ih h2

theorem not_infix_of_containsSub_false {sh : Char} {st s : Str}
    (h : containsSub (sh :: st) s = false) : ¬ (sh :: st) <:+: s := by
  intro hi
  rw [containsSub] at h
  have h0 : countOccNE sh st s = 0 := by
    have := of_decide_eq_false h
    simpa [goCount] using this
  exact countOccNE_ne_zero_of_occurs sh st s hi h0

/-- When the search string does not occur in a line at all, the literal
rewriter leaves the line unchanged: every serialized match has occurrence
count zero (so is re-emitted verbatim) and the plain-text pass finds
nothing to replace. -/
theorem resilientReplaceLiteral_of_no_occurrence (sh : Char) (st repl line : Str)
    (onlySer : Bool) (h : ¬ (sh :: st) <:+: line) :
    resilientReplaceLiteral (sh :: st) repl line onlySer = line := by
  have h1 : serialPassU (fixSerialLitU (sh :: st) repl) line = line := by
    refine serialPassU_congr_id _ line ?_
    intro p hp
    have hct : ¬ (sh :: st) <:+: p.2 :=
      fun hi => h (hi.trans (serialMatchesU_content_sub line p hp))
    rw [fixSerialLitU, if_pos]
    exact countOccNE_of_no_occurrence _ _ _ hct
  have h2 : serialPassE (fixSerialLitE (sh :: st) repl) line = line := by
    refine serialPassE_congr_id _ line ?_
    intro p hp
    have hct : ¬ (sh :: st) <:+: p.2 :=
      fun hi => h (hi.trans (serialMatchesE_content_sub line p hp))
    rw [fixSerialLitE, if_pos]
    exact countOccNE_of_no_occurrence _ _ _ hct
  simp only [resilientReplaceLiteral, h1, h2]
  cases onlySer with
  | true => simp
  | false =>
    show replaceAllNE sh st repl line = line
    exact replaceAllNE_of_no_occurrence sh st repl line h

/-- Strip one trailing carriage return (`dropCR` inside
`bufio.ScanLines`). -/
def dropCR (l : Str) : Str :=
  if l.getLast? = some '\r' then l.dropLast else l

/-- Structural worker for the line scanner: `acc` holds the current
line's characters in reverse. -/
def goScanLinesAux : Str → Str → List Str
  | [], acc => if acc.isEmpty then [] else [dropCR acc.reverse]
  | c :: rest, acc =>
    if c = '\n' then dropCR acc.reverse :: goScanLinesAux rest []
    else goScanLinesAux rest (c :: acc)

/-- The token sequence produced by `bufio.Scanner` with `bufio.ScanLines`:
split at every newline, strip a trailing carriage return from each token,
emit a final unterminated token only when non-empty. -/
def goScanLines (s : Str) : List Str := goScanLinesAux s []

/-- The scanner's 4 MiB line buffer configured by
`ResilientReplaceStream`. -/
def maxLineBytes : Nat := 4 * 1024 * 1024

/-- `ResilientReplaceStream`: rewrite every scanned line and write it
followed by a newline; fail with the scanner's error when a line exceeds
the 4 MiB buffer. -/
def ResilientReplaceStream (search repl : Str) (input : Str)
    (onlyIntoSerialized : Bool) : Except Str Str :=
  if (goScanLines input).all (fun l => decide (byteLen l ≤ maxLineBytes)) then
    Except.ok ((goScanLines input).foldr
      (fun l acc => resilientReplaceLiteral search repl l onlyIntoSerialized ++ '\n' :: acc) [])
  else
    Except.error ("bufio.Scanner: token too long" : String).data

theorem dropCR_prefix_self (l : Str) : dropCR l <+: l := by
  rw [dropCR]
  by_cases h : l.getLast? = some '\r'
  · rw [if_pos h]
    exact List.dropLast_prefix l
  · rw [if_neg h]

theorem goScanLinesAux_token_sub :
    ∀ rem acc : Str, ∀ l ∈ goScanLinesAux rem acc, l <:+: acc.reverse ++ rem := by
  intro rem
  induction rem with
  | nil =>
    intro acc l hl
    rw [goScanLinesAux] at hl
    by_cases h : acc.isEmpty = true
    · rw [if_pos h] at hl
      simp at hl
    · rw [if_neg h] at hl
      simp only [List.mem_singleton] at hl
      subst hl
      simpa using (dropCR_prefix_self acc.reverse).isInfix
  | cons c rest ih =>
    intro acc l hl
    rw [goScanLinesAux] at hl
    by_cases h : c = '\n'
    · rw [if_pos h] at hl
      rcases List.mem_cons.mp hl with h1 | h1
      · subst h1
        exact (dropCR_prefix_self acc.reverse).isInfix.trans
          ⟨[], c :: rest, by simp⟩
      · have := ih [] l h1
        simp only [List.reverse_nil, List.nil_append] at this
        exact this.trans ⟨acc.reverse ++ [c], [], by simp⟩
    · rw [if_neg h] at hl
      have := ih (c :: acc) l hl
      simp only [List.reverse_cons] at this
      simpa [List.append_assoc] using this

theorem goScanLines_token_sub (input : Str) : ∀ l ∈ goScanLines input, l <:+: input := by
  intro l hl
  have := goScanLinesAux_token_sub input [] l hl
  simpa using this

/-- C9: the stream rewriter terminates every output line with exactly one
newline: when the search string does not occur in the input at all, the
output is exactly the scanned lines re-joined with a single `\n` each — so
a final line that lacked a trailing newline gains one and a `\r` ending a
CRLF line is dropped, changing the file's bytes even for a pair that
matches nothing (witnessed by the concrete inputs `a` and `b\r\nc`). -/
theorem C9_stream_newlines :
    (∀ sh : Char, ∀ st repl input : Str, ∀ onlySer : Bool,
      containsSub (sh :: st) input = false →
      (goScanLines input).all (fun l => decide (byteLen l ≤ maxLineBytes)) = true →
      ResilientReplaceStream (sh :: st) repl input onlySer =
        Except.ok ((goScanLines input).foldr (fun l acc => l ++ '\n' :: acc) [])) ∧
    ResilientReplaceStream (("xy" : String).data) (("q" : String).data)
        (("a" : String).data) false = Except.ok (("a\n" : String).data) ∧
    ResilientReplaceStream (("xy" : String).data) (("q" : String).data)
        (("b\r\nc" : String).data) false = Except.ok (("b\nc\n" : String).data) ∧
    (("a\n" : String).data) ≠ (("a" : String).data) := by
  refine ⟨?_, by rfl, by rfl, by decide⟩
  intro sh st repl input onlySer hocc hshort
  have hinf := not_infix_of_containsSub_false hocc
  rw [ResilientReplaceStream, if_pos hshort]
  congr 1
  have hlines : ∀ l ∈ goScanLines input,
      resilientReplaceLiteral (sh :: st) repl l onlySer = l := by
    intro l hl
    refine resilientReplaceLiteral_of_no_occurrence sh st repl l onlySer ?_
    exact fun hi => hinf (hi.trans (goScanLines_token_sub input l hl))
  generalize goScanLines input = ls at hlines
  induction ls with
  | nil => rfl
  | cons a as ih =>
    simp only [List.foldr_cons, hlines a (List.mem_cons_self _ _),
      ih (fun l hl => hlines l (List.mem_cons_of_mem _ hl))]

/-- C9 witness: the no-match normalization applied at the concrete input
`hello` with pair `(xy, q)`. -/
theorem C9_witness :
    ResilientReplaceStream (("xy" : String).data) (("q" : String).data)
        (("hello" : String).data) false =
      Except.ok ((goScanLines (("hello" : String).data)).foldr
        (fun l acc => l ++ '\n' :: acc) []) :=
  C9_stream_newlines.1 'x' (("y" : String).data) (("q" : String).data)
    (("hello" : String).data) false (by decide) (by decide)


/-- A file in the model file system: contents and permission bits. -/
structure FSFile where
  content : Str
  perm : Nat
deriving DecidableEq

/-- A flat model file system: an association list from path to file. -/
structure FS where
  files : List (Str × FSFile)
deriving DecidableEq

/-- Look a path up in the file system. -/
def FS.lookup (fs : FS) (p : Str) : Option FSFile :=
  (fs.files.find? (fun e => e.1 == p)).map Prod.snd

/-- Create or overwrite the file at a path. -/
def FS.set (fs : FS) (p : Str) (f : FSFile) : FS :=
  FS.mk ((p, f) :: fs.files.filter (fun e => !(e.1 == p)))

/-- Delete the file at a path (`os.Remove`). -/
def FS.remove (fs : FS) (p : Str) : FS :=
  FS.mk (fs.files.filter (fun e => !(e.1 == p)))

theorem find?_filter_ne (p q : Str) (h : ¬ q = p) :
    ∀ l : List (Str × FSFile),
      List.find? (fun e => e.1 == q) (l.filter (fun e => !(e.1 == p))) =
        List.find? (fun e => e.1 == q) l := by
  intro l
  induction l with
  | nil => rfl
  | cons a t ih =>
    by_cases hap : a.1 = p
    · have h2 : (a.1 == q) = false := by
        simp only [beq_eq_false_iff_ne, ne_eq]
        intro hq
        exact h (hq ▸ hap)
      rw [List.filter_cons, if_neg (by simp [hap])]
      simp only [List.find?_cons, h2]
      exact ih
    · rw [List.filter_cons, if_pos (by simp [hap])]
      by_cases haq : a.1 = q
      · have h2 : (a.1 == q) = true := by simp [haq]
        simp only [List.find?_cons, h2]
      · have h2 : (a.1 == q) = false := by simp [haq]
        simp only [List.find?_cons, h2]
        exact ih

theorem FS.lookup_set_self (fs : FS) (p : Str) (f : FSFile) :
    (fs.set p f).lookup p = some f := by
  simp [FS.set, FS.lookup, List.find?_cons]

theorem FS.lookup_set_ne (fs : FS) (p q : Str) (f : FSFile) (h : ¬ q = p) :
    (fs.set p f).lookup q = fs.lookup q := by
  have hpq : ((p, f).1 == q) = false := by
    simp only [beq_eq_false_iff_ne, ne_eq]
    exact fun hq => h hq.symm
  simp only [FS.set, FS.lookup, List.find?_cons, hpq]
  rw [find?_filter_ne p q h]

theorem FS.lookup_remove_self (fs : FS) (p : Str) :
    (fs.remove p).lookup p = none := by
  simp only [FS.remove, FS.lookup, Option.map_eq_none']
  rw [List.find?_eq_none]
  intro e he
  have := (List.mem_filter.mp he).2
  simp only [Bool.not_eq_true', beq_eq_false_iff_ne, ne_eq] at this
  simpa using this

theorem FS.set_remove_fresh (fs : FS) (p : Str) (f : FSFile)
    (h : fs.lookup p = none) : (fs.set p f).remove p = fs := by
  have hall : ∀ e ∈ fs.files, (!(e.1 == p)) = true := by
    intro e he
    simp only [FS.lookup, Option.map_eq_none'] at h
    have := List.find?_eq_none.mp h e he
    simpa using this
  simp only [FS.remove, FS.set, List.filter_cons]
  rw [if_neg (by simp)]
  rw [List.filter_eq_self.mpr hall, List.filter_eq_self.mpr hall]

/-- Temp file name used by `os.CreateTemp` in the directory of the target,
modelled as a deterministic fresh sibling name. -/
def tmpNameOf (path : Str) : Str := path ++ (".sitesync-replace-tmp" : String).data

theorem tmpNameOf_ne (path : Str) : ¬ tmpNameOf path = path := by
  intro h
  have := congrArg List.length h
  simp [tmpNameOf] at this

/-- The body of `ResilientReplaceFile` once the original file has been
opened: create a sibling temp file (mode 0600, as `os.CreateTemp`),
stream-rewrite into it — on a stream error remove the temp file, leaving
the original untouched — otherwise chmod the temp file to the original's
permission bits (`os.Chmod` after `os.Stat` of the original) and
atomically rename it over the original. -/
def replaceFileOpened (search repl path : Str) (onlySer : Bool) (fs : FS)
    (f : FSFile) : Option Str × FS :=
  match ResilientReplaceStream search repl f.content onlySer with
  | Except.error e =>
    (some e, (fs.set (tmpNameOf path) (FSFile.mk [] 384)).remove (tmpNameOf path))
  | Except.ok out =>
    (none,
      ((((fs.set (tmpNameOf path) (FSFile.mk [] 384)).set (tmpNameOf path)
          (FSFile.mk out 384)).set (tmpNameOf path)
          (FSFile.mk out f.perm)).remove (tmpNameOf path)).set path
        (FSFile.mk out f.perm))

/-- `ResilientReplaceFile` on the model file system: open the original
(error when absent, file system untouched), then rewrite through the
sibling temp file. -/
def ResilientReplaceFile (search repl path : Str) (onlySer : Bool) (fs : FS) :
    Option Str × FS :=
  match fs.lookup path with
  | none => (some (("open error" : String).data), fs)
  | some f => replaceFileOpened search repl path onlySer fs f

/-- C8: the in-place rewriter writes to a sibling temp file and renames it
over the original only on success, preserving the original's permission
bits; whenever it returns an error the temp file has been removed and the
file system — in particular the original file — is exactly as before. -/
theorem ResilientReplaceFile_none {search repl path : Str} {onlySer : Bool} {fs : FS}
    (h : fs.lookup path = none) :
    ResilientReplaceFile search repl path onlySer fs =
      (some (("open error" : String).data), fs) := by
  rw [ResilientReplaceFile, h]

theorem ResilientReplaceFile_some {search repl path : Str} {onlySer : Bool} {fs : FS}
    {f : FSFile} (h : fs.lookup path = some f) :
    ResilientReplaceFile search repl path onlySer fs =
      replaceFileOpened search repl path onlySer fs f := by
  rw [ResilientReplaceFile, h]

theorem replaceFileOpened_error {search repl path : Str} {onlySer : Bool} {fs : FS}
    {f : FSFile} {e : Str}
    (h : ResilientReplaceStream search repl f.content onlySer = Except.error e) :
    replaceFileOpened search repl path onlySer fs f =
      (some e, (fs.set (tmpNameOf path) (FSFile.mk [] 384)).remove (tmpNameOf path)) := by
  unfold replaceFileOpened
  rw [h]

theorem replaceFileOpened_ok {search repl path : Str} {onlySer : Bool} {fs : FS}
    {f : FSFile} {out : Str}
    (h : ResilientReplaceStream search repl f.content onlySer = Except.ok out) :
    replaceFileOpened search repl path onlySer fs f =
      (none,
        ((((fs.set (tmpNameOf path) (FSFile.mk [] 384)).set (tmpNameOf path)
            (FSFile.mk out 384)).set (tmpNameOf path)
            (FSFile.mk out f.perm)).remove (tmpNameOf path)).set path
          (FSFile.mk out f.perm)) := by
  unfold replaceFileOpened
  rw [h]

/-- C8: the in-place rewriter writes to a sibling temp file and renames it
over the original only on success, preserving the original's permission
bits; whenever it returns an error the temp file has been removed and the
file system — in particular the original file — is exactly as before. -/
theorem C8_replace_file (search repl path : Str) (onlySer : Bool) (fs : FS)
    (hfresh : fs.lookup (tmpNameOf path) = none) :
    (∀ e, (ResilientReplaceFile search repl path onlySer fs).1 = some e →
      (ResilientReplaceFile search repl path onlySer fs).2 = fs) ∧
    (∀ f, fs.lookup path = some f →
      (ResilientReplaceFile search repl path onlySer fs).1 = none →
      ∃ out, ResilientReplaceStream search repl f.content onlySer = Except.ok out ∧
        (ResilientReplaceFile search repl path onlySer fs).2.lookup path =
          some (FSFile.mk out f.perm) ∧
        (ResilientReplaceFile search repl path onlySer fs).2.lookup (tmpNameOf path) =
          none) := by
  constructor
  · intro e he
    cases hl : fs.lookup path with
    | none =>
      rw [ResilientReplaceFile_none hl]
    | some f =>
      cases hstream : ResilientReplaceStream search repl f.content onlySer with
      | error msg =>
        rw [ResilientReplaceFile_some hl, replaceFileOpened_error hstream]
        exact FS.set_remove_fresh fs (tmpNameOf path) (FSFile.mk [] 384) hfresh
      | ok out =>
        rw [ResilientReplaceFile_some hl, replaceFileOpened_ok hstream] at he
        simp at he
  · intro f hf hnone
    cases hstream : ResilientReplaceStream search repl f.content onlySer with
    | error msg =>
      rw [ResilientReplaceFile_some hf, replaceFileOpened_error hstream] at hnone
      simp at hnone
    | ok out =>
      refine ⟨out, rfl, ?_, ?_⟩
      · rw [ResilientReplaceFile_some hf, replaceFileOpened_ok hstream]
        exact FS.lookup_set_self _ path (FSFile.mk out f.perm)
      · rw [ResilientReplaceFile_some hf, replaceFileOpened_ok hstream]
        rw [FS.lookup_set_ne _ path (tmpNameOf path) _ (tmpNameOf_ne path)]
        exact FS.lookup_remove_self _ (tmpNameOf path)

/-- C8 witness: on a one-file system the rewrite succeeds, replaces the
content at the original path, preserves the permission bits 420 (0644),
and leaves no temp file; and on the empty file system the open error
leaves the file system unchanged. -/
theorem C8_witness :
    ((FS.mk [((("f.sql" : String).data), FSFile.mk (("a" : String).data) 420)]).lookup
        (tmpNameOf (("f.sql" : String).data)) = none ∧
      (∃ out,
        ResilientReplaceStream (("x" : String).data) (("y" : String).data)
            (("a" : String).data) false = Except.ok out ∧
        (ResilientReplaceFile (("x" : String).data) (("y" : String).data)
              (("f.sql" : String).data) false
              (FS.mk [((("f.sql" : String).data), FSFile.mk (("a" : String).data) 420)])).2.lookup
            (("f.sql" : String).data) = some (FSFile.mk out 420) ∧
        (ResilientReplaceFile (("x" : String).data) (("y" : String).data)
              (("f.sql" : String).data) false
              (FS.mk [((("f.sql" : String).data), FSFile.mk (("a" : String).data) 420)])).2.lookup
            (tmpNameOf (("f.sql" : String).data)) = none)) ∧
    (ResilientReplaceFile (("x" : String).data) (("y" : String).data)
        (("f.sql" : String).data) false (FS.mk [])).2 = FS.mk [] := by
  constructor
  · refine ⟨by decide, ?_⟩
    exact (C8_replace_file (("x" : String).data) (("y" : String).data)
        (("f.sql" : String).data) false
        (FS.mk [((("f.sql" : String).data), FSFile.mk (("a" : String).data) 420)])
        (by decide)).2 (FSFile.mk (("a" : String).data) 420) (by decide) (by rfl)
  · exact (C8_replace_file (("x" : String).data) (("y" : String).data)
      (("f.sql" : String).data) false (FS.mk []) (by decide)).1
      (("open error" : String).data) (by rfl)


/-- The source-endpoint fields of the site profile consumed by the
embedded functions (`internal/config.Config`). -/
structure SourceCfg where
  server : Str
  user : Str
  port : Nat
  sourceType : Str
  file : Str
  dbHostname : Str
  dbPort : Str
  dbName : Str
  dbUser : Str
  dbPassword : Str
  pathToMysqldump : Str
deriving DecidableEq

/-- The destination-endpoint fields of the site profile. -/
structure DestCfg where
  dbHostname : Str
  dbPort : Str
  dbName : Str
  dbUser : Str
  dbPassword : Str
  pathToMySQL : Str
  pathToRsync : Str
  pathToMysqldump : Str
  pathToLftp : Str
deriving DecidableEq

/-- The database options of the site profile. -/
structure DatabaseCfg where
  sqlOptionsStructure : Str
  sqlOptionsExtra : Str
  ignoreTables : List Str
deriving DecidableEq

/-- The slice of the site profile used by the dump, import and engine
functions. -/
structure Config where
  source : SourceCfg
  destination : DestCfg
  database : DatabaseCfg
  replace : List (Str × Str)
  sync : List (Str × Str)
  transportType : Str
deriving DecidableEq

/-- Go `unicode.IsSpace` restricted to Latin-1 (sufficient for the
whitespace that can appear in option strings). -/
def isSpaceChar (c : Char) : Bool :=
  c.toNat = 32 || (9 ≤ c.toNat && c.toNat ≤ 13) || c.toNat = 133 || c.toNat = 160

/-- Structural worker for `strings.Fields`. -/
def goFieldsAux : Str → Str → List Str
  | [], acc => if acc.isEmpty then [] else [acc.reverse]
  | c :: rest, acc =>
    if isSpaceChar c then
      if acc.isEmpty then goFieldsAux rest [] else acc.reverse :: goFieldsAux rest []
    else goFieldsAux rest (c :: acc)

/-- Go `strings.Fields`: split on runs of whitespace, no empty fields. -/
def goFields (s : Str) : List Str := goFieldsAux s []

/-- Go `strings.Join(args, " ")`. -/
def joinSpace (args : List Str) : Str := List.intercalate ((" " : String).data) args

/-- `buildDumpArgs` from `internal/sync/database.go`: structure options,
extra options, host flag, optional port, optional user, optional
attached-value password flag, one ignore-table flag per excluded table and
the database name last (the `remote` parameter is unused in the source). -/
def buildDumpArgs (cfg : Config) (remote : Bool) : List Str :=
  (if cfg.database.sqlOptionsStructure ≠ [] then goFields cfg.database.sqlOptionsStructure
   else []) ++
  (if cfg.database.sqlOptionsExtra ≠ [] then goFields cfg.database.sqlOptionsExtra
   else []) ++
  [("-h" : String).data, cfg.source.dbHostname] ++
  (if cfg.source.dbPort ≠ [] then [("-P" : String).data, cfg.source.dbPort] else []) ++
  (if cfg.source.dbUser ≠ [] then [("-u" : String).data, cfg.source.dbUser] else []) ++
  (if cfg.source.dbPassword ≠ []
   then [("-p" : String).data ++ cfg.source.dbPassword] else []) ++
  cfg.database.ignoreTables.map (fun t =>
    ("--ignore-table=" : String).data ++ cfg.source.dbName ++ ("." : String).data ++ t) ++
  (if cfg.source.dbName ≠ [] then [cfg.source.dbName] else [])

/-- `buildMySQLArgs` from `internal/sync/database.go`. -/
def buildMySQLArgs (cfg : Config) : List Str :=
  [("-h" : String).data, cfg.destination.dbHostname] ++
  (if cfg.destination.dbPort ≠ [] then [("-P" : String).data, cfg.destination.dbPort]
   else []) ++
  (if cfg.destination.dbUser ≠ [] then [("-u" : String).data, cfg.destination.dbUser]
   else []) ++
  (if cfg.destination.dbPassword ≠ []
   then [("-p" : String).data ++ cfg.destination.dbPassword] else []) ++
  [cfg.destination.dbName]

/-- `mysqlBin`: the configured import binary, defaulting to `mysql`. -/
def mysqlBin (cfg : Config) : Str :=
  if cfg.destination.pathToMySQL ≠ [] then cfg.destination.pathToMySQL
  else ("mysql" : String).data

/-- `redactArgs`: space-join the argument list with every attached-value
`-p<password>` argument replaced by `-p[REDACTED]`. -/
def redactArgs (args : List Str) : Str :=
  joinSpace (args.map (fun a =>
    if ("-p" : String).data.isPrefixOf a ∧ 2 < byteLen a
    then ("-p[REDACTED]" : String).data else a))

/-- The log line announcing the remote dump command emitted by
`dumpRemoteDB` (`fmt.Sprintf` of `"  $ ssh %s"` with the joined ssh
argument vector, whose last element is the remote mysqldump command). -/
def dumpRemoteDBLogLine (cfg : Config) : Str :=
  joinSpace
    [("  $ ssh" : String).data,
      ("-p" : String).data, natDigits cfg.source.port,
      cfg.source.user ++ ("@" : String).data ++ cfg.source.server,
      joinSpace
        ((if cfg.source.pathToMysqldump = [] then ("mysqldump" : String).data
          else cfg.source.pathToMysqldump) :: buildDumpArgs cfg true)]

/-- The log line announcing the import command emitted by `ImportDump`
(`fmt.Sprintf` of `"  $ %s %s"` with the binary and the redacted
argument vector). -/
def importDumpLogLine (cfg : Config) : Str :=
  ("  $ " : String).data ++ mysqlBin cfg ++ (" " : String).data ++
    redactArgs (buildMySQLArgs cfg)

/-- A remote-dump profile whose source DB password is `hunter2` and whose
destination DB password is `dstsecret`. -/
def cfgLeak : Config :=
  Config.mk
    (SourceCfg.mk (("srv" : String).data) (("alice" : String).data) 22
      (("remote_base" : String).data) [] (("dbh" : String).data) []
      (("mydb" : String).data) (("dbu" : String).data)
      (("hunter2" : String).data) [])
    (DestCfg.mk (("localhost" : String).data) [] (("localdb" : String).data)
      (("root" : String).data) (("dstsecret" : String).data) [] [] [] [])
    (DatabaseCfg.mk (("--default-character-set=utf8" : String).data) [] [])
    [] [] (("rsync" : String).data)

/-- C1: evaluation at the failing input.  For a remote-dump profile with a
source DB password, the ssh announce line emitted by `dumpRemoteDB`
contains the literal password (no redaction is applied there), refuting
the claim; `ImportDump`'s announce line is redacted as claimed, and
`redactArgs` would have scrubbed the dump argument vector too. -/
theorem C1_password_leak_eval :
    containsSub (("hunter2" : String).data) (dumpRemoteDBLogLine cfgLeak) = true ∧
    containsSub (("dstsecret" : String).data) (importDumpLogLine cfgLeak) = false ∧
    containsSub (("hunter2" : String).data) (redactArgs (buildDumpArgs cfgLeak true)) = false := by
  refine ⟨by decide, by decide, by decide⟩

/-- `filepath.Join` for a directory and a file name (no cleaning is needed
for the name shapes produced by `DumpFilePath`). -/
def goJoinPath (dir name : Str) : Str :=
  if dir = [] then name else dir ++ '/' :: name

/-- `DumpFilePath`: `filepath.Join(tmpDir, fmt.Sprintf("%s.sql", confName))`. -/
def DumpFilePath (tmpDir confName : Str) : Str :=
  goJoinPath tmpDir (confName ++ ((".sql" : String).data))

/-- Go `strings.HasSuffix`. -/
def goHasSuffix (suffix s : Str) : Bool := suffix.isSuffixOf s

/-- The gzip-branch condition of `ImportDump`:
`strings.HasSuffix(dumpPath, ".gz")`. -/
def importUsesGzip (dumpPath : Str) : Bool :=
  goHasSuffix ((".gz" : String).data) dumpPath

theorem DumpFilePath_shape (tmpDir confName : Str) :
    ∃ stem : Str, DumpFilePath tmpDir confName = stem ++ ((".sql" : String).data) := by
  rw [DumpFilePath, goJoinPath]
  by_cases h : tmpDir = []
  · rw [if_pos h]
    exact ⟨confName, rfl⟩
  · rw [if_neg h]
    exact ⟨tmpDir ++ '/' :: confName, by simp⟩

/-- C10: the dump artifact path always ends in `.sql` and never in `.gz`,
so the gzip-decompression branch of `ImportDump` is unreachable from the
engine: the dump is fed to the import binary undecompressed. -/
theorem C10_dump_path_sql (tmpDir confName : Str) :
    goHasSuffix ((".sql" : String).data) (DumpFilePath tmpDir confName) = true ∧
    importUsesGzip (DumpFilePath tmpDir confName) = false := by
  obtain ⟨stem, hstem⟩ := DumpFilePath_shape tmpDir confName
  constructor
  · rw [goHasSuffix, hstem]
    exact List.isSuffixOf_iff_suffix.mpr (List.suffix_append stem _)
  · rw [importUsesGzip, goHasSuffix, hstem]
    by_contra hgz
    rw [Bool.not_eq_false, List.isSuffixOf_iff_suffix] at hgz
    obtain ⟨t, ht⟩ := hgz
    have h1 : (t ++ ((".gz" : String).data)).getLast? = some 'z' := by
      rw [List.getLast?_append_of_ne_nil t (by decide)]
      decide
    have h2 : (stem ++ ((".sql" : String).data)).getLast? = some 'l' := by
      rw [List.getLast?_append_of_ne_nil stem (by decide)]
      decide
    rw [ht] at h1
    rw [h1] at h2
    simp at h2


/-- The engine event kinds (`internal/sync/events.go`). -/
inductive EventType
  | stepStart
  | stepDone
  | stepFail
  | log
  | progress
  | done
deriving DecidableEq

/-- The message passed from the engine to the observer; the float64
progress field is modelled over ℚ. -/
structure Event where
  type : EventType
  step : Nat
  message : Str
  progress : ℚ
deriving DecidableEq

/-- `Event{Type: EvStepStart, Step: i}`. -/
def evStart (i : Nat) : Event := Event.mk EventType.stepStart i [] 0

/-- `Event{Type: EvStepDone, Step: i}`. -/
def evDone (i : Nat) : Event := Event.mk EventType.stepDone i [] 0

/-- `Event{Type: EvStepFail, Step: i, Message: m}`. -/
def evFail (i : Nat) (m : Str) : Event := Event.mk EventType.stepFail i m 0

/-- `Event{Type: EvLog, Step: i, Message: m}`. -/
def evLog (i : Nat) (m : Str) : Event := Event.mk EventType.log i m 0

/-- `Event{Type: EvProgress, Step: i, Progress: p}`. -/
def evProgress (i : Nat) (p : ℚ) : Event := Event.mk EventType.progress i [] p

/-- `Event{Type: EvDone}`. -/
def evRunDone : Event := Event.mk EventType.done 0 [] 0

/-- The per-run inputs of `Run` that are external to the engine control
flow: whether the temp directory could be created (and the error text
otherwise), the cancellation token sampled at each step boundary, and each
step function's emitted events, result and elapsed-time log text (the step
bodies perform subprocess I/O and are oracles of the model). -/
structure RunEnv where
  mkdirOk : Bool
  mkdirMsg : Str
  cancelAt : Nat → Bool
  stepEvents : Nat → List Event
  stepErr : Nat → Option Str
  elapsedMsg : Nat → Str
  totalMsg : Str

/-- The preamble log events of `Run` (site, source, database, replacement
count, sync pairs, transport, blank line). -/
def preambleEvents (cfg : Config) (confName : Str) (skipSQL skipFiles : Bool) :
    List Event :=
  [evLog 0 (("▸ site: " : String).data ++ confName)] ++
  (if skipSQL then []
   else
    [evLog 0 (("▸ source: " : String).data ++ cfg.source.user ++ ("@" : String).data ++
        cfg.source.server ++ (" (" : String).data ++ cfg.source.sourceType ++
        (")" : String).data),
      evLog 0 (("▸ database: " : String).data ++ cfg.source.dbName ++
        (" → " : String).data ++ cfg.destination.dbName),
      evLog 0 (("▸ replacements: " : String).data ++ natDigits cfg.replace.length ++
        (" pairs" : String).data)]) ++
  (if skipFiles then []
   else
    cfg.sync.map (fun sp =>
      evLog 0 (("▸ files: " : String).data ++ sp.1 ++ (" → " : String).data ++ sp.2)) ++
    [evLog 0 (("▸ transport: " : String).data ++ cfg.transportType)]) ++
  [evLog 0 []]

/-- The step loop of `Run`: at each step the cancellation token is checked
(emitting a `cancelled` step-fail and stopping), then step-start is
emitted, the step function runs emitting its own events, and either
step-fail ends the run or an elapsed-time log and step-done are emitted;
after the last step a run-total log and the run-done event are emitted. -/
def engineSteps (env : RunEnv) : List Nat → List Event
  | [] => [evLog 0 env.totalMsg, evRunDone]
  | i :: rest =>
    if env.cancelAt i then [evFail i (("cancelled" : String).data)]
    else
      evStart i :: (env.stepEvents i ++
        match env.stepErr i with
        | some m => [evFail i m]
        | none => evLog i (env.elapsedMsg i) :: evDone i :: engineSteps env rest)

/-- `Run` as an event trace: a failed temp-directory creation emits a
single step-fail; otherwise the preamble is followed by the seven-step
loop. -/
def engineTrace (cfg : Config) (confName : Str) (skipSQL skipFiles : Bool)
    (env : RunEnv) : List Event :=
  if env.mkdirOk then
    preambleEvents cfg confName skipSQL skipFiles ++
      engineSteps env [1, 2, 3, 4, 5, 6, 7]
  else [evFail 1 env.mkdirMsg]

/-- Events that shape the run protocol: step-start, step-done, step-fail
and run-done. -/
def isSkelEv (e : Event) : Bool :=
  decide (e.type = EventType.stepStart) || decide (e.type = EventType.stepDone) ||
  decide (e.type = EventType.stepFail) || decide (e.type = EventType.done)

/-- The protocol skeleton of a trace. -/
def skel (tr : List Event) : List Event := tr.filter isSkelEv

/-- Number of run-done events in a trace. -/
def countRunDone (tr : List Event) : Nat :=
  tr.countP (fun e => decide (e.type = EventType.done))

/-- The expected (start, done) pair sequence of a list of steps. -/
def donePairs : List Nat → List Event
  | [] => []
  | i :: rest => evStart i :: evDone i :: donePairs rest

theorem countRunDone_eq_skel (tr : List Event) :
    countRunDone tr = countRunDone (skel tr) := by
  rw [skel, countRunDone, countRunDone, List.countP_filter]
  refine List.countP_congr ?_
  intro e _
  constructor
  · intro h
    simp only [decide_eq_true_eq] at h
    simp [isSkelEv, h]
  · intro h
    simp only [Bool.and_eq_true] at h
    exact h.1

theorem preamble_all_log (cfg : Config) (confName : Str) (skipSQL skipFiles : Bool) :
    ∀ e ∈ preambleEvents cfg confName skipSQL skipFiles, ∃ i m, e = evLog i m := by
  intro e he
  rw [preambleEvents] at he
  rcases List.mem_append.mp he with h | h
  · rcases List.mem_append.mp h with h | h
    · rcases List.mem_append.mp h with h | h
      · rw [List.mem_singleton] at h
        exact ⟨_, _, h⟩
      · by_cases hs : skipSQL
        · rw [if_pos hs] at h
          simp at h
        · rw [if_neg hs] at h
          rcases List.mem_cons.mp h with h | h
          · exact ⟨_, _, h⟩
          rcases List.mem_cons.mp h with h | h
          · exact ⟨_, _, h⟩
          rw [List.mem_singleton] at h
          exact ⟨_, _, h⟩
    · by_cases hf : skipFiles
      · rw [if_pos hf] at h
        simp at h
      · rw [if_neg hf] at h
        rcases List.mem_append.mp h with h | h
        · obtain ⟨sp, _, hsp⟩ := List.mem_map.mp h
          exact ⟨_, _, hsp.symm⟩
        · rw [List.mem_singleton] at h
          exact ⟨_, _, h⟩
  · rw [List.mem_singleton] at h
    exact ⟨_, _, h⟩

theorem skel_preamble (cfg : Config) (confName : Str) (skipSQL skipFiles : Bool) :
    skel (preambleEvents cfg confName skipSQL skipFiles) = [] := by
  rw [skel, List.filter_eq_nil]
  intro e he
  obtain ⟨i, m, hm⟩ := preamble_all_log cfg confName skipSQL skipFiles e he
  rw [hm]
  show ¬ isSkelEv (evLog i m) = true
  have hfalse : isSkelEv (evLog i m) = false := rfl
  rw [hfalse]
  exact Bool.false_ne_true

theorem skel_engineSteps_ok (env : RunEnv)
    (hb : ∀ i, (env.stepEvents i).filter isSkelEv = []) :
    ∀ ℓ : List Nat,
      (∀ i ∈ ℓ, env.cancelAt i = false ∧ env.stepErr i = none) →
      skel (engineSteps env ℓ) = donePairs ℓ ++ [evRunDone] := by
  intro ℓ
  induction ℓ with
  | nil =>
    intro _
    rfl
  | cons i rest ih =>
    intro hok
    obtain ⟨hc, he⟩ := hok i (List.mem_cons_self _ _)
    rw [engineSteps, if_neg (by rw [hc]; exact Bool.false_ne_true), he]
    rw [skel, List.filter_cons]
    have hs : isSkelEv (evStart i) = true := rfl
    rw [if_pos hs, List.filter_append, hb i]
    rw [List.filter_cons]
    have hl : isSkelEv (evLog i (env.elapsedMsg i)) = false := rfl
    rw [if_neg (by rw [hl]; exact Bool.false_ne_true)]
    rw [List.filter_cons]
    have hd : isSkelEv (evDone i) = true := rfl
    rw [if_pos hd]
    have := ih (fun k hk => hok k (List.mem_cons_of_mem _ hk))
    rw [skel] at this
    rw [this, donePairs]
    rfl

theorem skel_engineSteps_fail (env : RunEnv)
    (hb : ∀ i, (env.stepEvents i).filter isSkelEv = []) :
    ∀ ℓ₁ : List Nat, ∀ j : Nat, ∀ ℓ₂ : List Nat, ∀ m : Str,
      (∀ i ∈ ℓ₁, env.cancelAt i = false ∧ env.stepErr i = none) →
      env.cancelAt j = false → env.stepErr j = some m →
      skel (engineSteps env (ℓ₁ ++ j :: ℓ₂)) =
        donePairs ℓ₁ ++ [evStart j, evFail j m] := by
  intro ℓ₁
  induction ℓ₁ with
  | nil =>
    intro j ℓ₂ m _ hcj hej
    rw [List.nil_append, engineSteps,
      if_neg (by rw [hcj]; exact Bool.false_ne_true), hej]
    rw [skel, List.filter_cons]
    have hs : isSkelEv (evStart j) = true := rfl
    rw [if_pos hs, List.filter_append, hb j]
    rw [donePairs]
    rfl
  | cons i rest ih =>
    intro j ℓ₂ m hok hcj hej
    obtain ⟨hc, he⟩ := hok i (List.mem_cons_self _ _)
    rw [List.cons_append, engineSteps,
      if_neg (by rw [hc]; exact Bool.false_ne_true), he]
    rw [skel, List.filter_cons]
    have hs : isSkelEv (evStart i) = true := rfl
    rw [if_pos hs, List.filter_append, hb i]
    rw [List.filter_cons]
    have hl : isSkelEv (evLog i (env.elapsedMsg i)) = false := rfl
    rw [if_neg (by rw [hl]; exact Bool.false_ne_true)]
    rw [List.filter_cons]
    have hd : isSkelEv (evDone i) = true := rfl
    rw [if_pos hd]
    have := ih j ℓ₂ m (fun k hk => hok k (List.mem_cons_of_mem _ hk)) hcj hej
    rw [skel] at this
    rw [this, donePairs]
    rfl

theorem runDoneP_evStart (i : Nat) :
    decide ((evStart i).type = EventType.done) = false := rfl

theorem runDoneP_evDone (i : Nat) :
    decide ((evDone i).type = EventType.done) = false := rfl

theorem runDoneP_evLog (i : Nat) (m : Str) :
    decide ((evLog i m).type = EventType.done) = false := rfl

theorem runDoneP_evFail (i : Nat) (m : Str) :
    decide ((evFail i m).type = EventType.done) = false := rfl

theorem runDoneP_evRunDone : decide (evRunDone.type = EventType.done) = true := rfl

theorem countRunDone_engineSteps_le (env : RunEnv)
    (hb : ∀ i, (env.stepEvents i).filter isSkelEv = []) :
    ∀ ℓ : List Nat, countRunDone (engineSteps env ℓ) ≤ 1 := by
  have hbody : ∀ i, countRunDone (env.stepEvents i) = 0 := by
    intro i
    rw [countRunDone_eq_skel, skel, hb i]
    rfl
  intro ℓ
  induction ℓ with
  | nil =>
    rw [engineSteps, countRunDone]
    simp [List.countP_cons, runDoneP_evLog, runDoneP_evRunDone]
  | cons i rest ih =>
    rw [engineSteps]
    by_cases hc : env.cancelAt i = true
    · rw [if_pos hc, countRunDone]
      simp [List.countP_cons, runDoneP_evFail]
    · rw [if_neg hc]
      cases herr : env.stepErr i with
      | some m =>
        rw [countRunDone]
        simp only [List.countP_cons, List.countP_append, List.countP_nil,
          runDoneP_evStart, runDoneP_evFail]
        have h2 := hbody i
        rw [countRunDone] at h2
        simp [h2]
      | none =>
        rw [countRunDone]
        simp only [List.countP_cons, List.countP_append,
          runDoneP_evStart, runDoneP_evLog, runDoneP_evDone]
        have h2 := hbody i
        rw [countRunDone] at h2
        have h3 := ih
        rw [countRunDone] at h3
        simp [h2]
        omega

theorem countRunDone_donePairs : ∀ ℓ : List Nat, countRunDone (donePairs ℓ) = 0 := by
  intro ℓ
  induction ℓ with
  | nil => rfl
  | cons i rest ih =>
    rw [donePairs, countRunDone]
    simp only [List.countP_cons, runDoneP_evStart, runDoneP_evDone]
    have h2 := ih
    rw [countRunDone] at h2
    simp [h2]


/-- A run environment whose first step fails and which is otherwise
benign. -/
def envFailStep1 : RunEnv :=
  RunEnv.mk true [] (fun _ => false) (fun _ => [])
    (fun i => if i = 1 then some (("boom" : String).data) else none)
    (fun _ => []) []

/-- A run environment in which every step succeeds. -/
def envAllOk : RunEnv :=
  RunEnv.mk true [] (fun _ => false) (fun _ => []) (fun _ => none) (fun _ => []) []

/-- C4 counterexample: on a run whose first phase errors, the engine
returns without ever emitting a run-done event, so it is not the case that
every run emits exactly one run-done. -/
theorem C4_counterexample :
    countRunDone (engineTrace cfgLeak (("site" : String).data) false false
      envFailStep1) ≠ 1 := by
  decide

/-- C4 (amended): at most one run-done is ever emitted.  On a run where
the temp directory is created, no step errs and nothing is cancelled, the
protocol skeleton of the trace is exactly the seven (start, done) pairs
followed by the single run-done.  When a step errs, the skeleton is the
pairs of the completed steps followed by (start, fail) of the failing
step, and no run-done is emitted at all — the engine signals termination
by closing the event channel instead. -/
theorem C4_run_done_amended (cfg : Config) (confName : Str)
    (skipSQL skipFiles : Bool) (env : RunEnv)
    (hb : ∀ i, (env.stepEvents i).filter isSkelEv = []) :
    countRunDone (engineTrace cfg confName skipSQL skipFiles env) ≤ 1 ∧
    (env.mkdirOk = true →
      (∀ i ∈ [1, 2, 3, 4, 5, 6, 7], env.cancelAt i = false ∧ env.stepErr i = none) →
      skel (engineTrace cfg confName skipSQL skipFiles env) =
        donePairs [1, 2, 3, 4, 5, 6, 7] ++ [evRunDone] ∧
      countRunDone (engineTrace cfg confName skipSQL skipFiles env) = 1) ∧
    (∀ ℓ₁ : List Nat, ∀ j : Nat, ∀ ℓ₂ : List Nat, ∀ m : Str,
      [1, 2, 3, 4, 5, 6, 7] = ℓ₁ ++ j :: ℓ₂ →
      (∀ i ∈ ℓ₁, env.cancelAt i = false ∧ env.stepErr i = none) →
      env.cancelAt j = false → env.stepErr j = some m →
      env.mkdirOk = true →
      skel (engineTrace cfg confName skipSQL skipFiles env) =
        donePairs ℓ₁ ++ [evStart j, evFail j m] ∧
      countRunDone (engineTrace cfg confName skipSQL skipFiles env) = 0) := by
  refine ⟨?_, ?_, ?_⟩
  · rw [engineTrace]
    by_cases hmk : env.mkdirOk = true
    · rw [if_pos hmk, countRunDone, List.countP_append]
      have hpre : (preambleEvents cfg confName skipSQL skipFiles).countP
          (fun e => decide (e.type = EventType.done)) = 0 := by
        have := countRunDone_eq_skel (preambleEvents cfg confName skipSQL skipFiles)
        rw [skel_preamble] at this
        rw [countRunDone] at this
        simpa [countRunDone] using this
      rw [hpre]
      have := countRunDone_engineSteps_le env hb [1, 2, 3, 4, 5, 6, 7]
      rw [countRunDone] at this
      omega
    · rw [if_neg hmk, countRunDone]
      simp [List.countP_cons, runDoneP_evFail]
  · intro hmk hok
    rw [engineTrace, if_pos hmk]
    have hskel : skel (preambleEvents cfg confName skipSQL skipFiles ++
        engineSteps env [1, 2, 3, 4, 5, 6, 7]) =
        donePairs [1, 2, 3, 4, 5, 6, 7] ++ [evRunDone] := by
      rw [skel, List.filter_append]
      have h1 := skel_preamble cfg confName skipSQL skipFiles
      rw [skel] at h1
      rw [h1, List.nil_append]
      have h2 := skel_engineSteps_ok env hb [1, 2, 3, 4, 5, 6, 7] hok
      rw [skel] at h2
      exact h2
    refine ⟨hskel, ?_⟩
    rw [countRunDone_eq_skel, hskel, countRunDone, List.countP_append]
    have h3 := countRunDone_donePairs [1, 2, 3, 4, 5, 6, 7]
    rw [countRunDone] at h3
    rw [h3]
    rfl
  · intro l1 j l2 m hdecomp hok hcj hej hmk
    have hskel : skel (engineTrace cfg confName skipSQL skipFiles env) =
        donePairs l1 ++ [evStart j, evFail j m] := by
      rw [engineTrace, if_pos hmk, skel, List.filter_append]
      have h1 := skel_preamble cfg confName skipSQL skipFiles
      rw [skel] at h1
      rw [h1, List.nil_append]
      have h2 := skel_engineSteps_fail env hb l1 j l2 m hok hcj hej
      rw [skel] at h2
      rw [hdecomp]
      exact h2
    refine ⟨hskel, ?_⟩
    rw [countRunDone_eq_skel, hskel, countRunDone, List.countP_append]
    have h3 := countRunDone_donePairs l1
    rw [countRunDone] at h3
    rw [h3]
    rfl

/-- C4 witness: the amended protocol theorem applied to an all-success
run of the example profile. -/
theorem C4_witness :
    skel (engineTrace cfgLeak (("site" : String).data) false false envAllOk) =
      donePairs [1, 2, 3, 4, 5, 6, 7] ++ [evRunDone] ∧
    countRunDone (engineTrace cfgLeak (("site" : String).data) false false envAllOk) = 1 :=
  (C4_run_done_amended cfgLeak (("site" : String).data) false false envAllOk
      (fun _ => rfl)).2.1 rfl (fun _ _ => ⟨rfl, rfl⟩)


/-- The sequence of progress values emitted by the `Read` calls of
`progressReader` (phase 4): each call adds the bytes read, computes the
whole-number percentage `int(float64(read)/float64(total)*100)` (exact
rational arithmetic here; integer truncation of a non-negative quotient is
floor division), and emits `pct/100` only when the percentage changed and
does not exceed 100. -/
def progressReaderRun (total : Nat) : Nat → Nat → List Nat → List ℚ
  | _, _, [] => []
  | read, lastPct, n :: ns =>
    if (read + n) * 100 / total ≠ lastPct ∧ (read + n) * 100 / total ≤ 100 then
      (((read + n) * 100 / total : Nat) : ℚ) / 100 ::
        progressReaderRun total (read + n) ((read + n) * 100 / total) ns
    else progressReaderRun total (read + n) lastPct ns

/-- Boolean check that a list of rationals is non-decreasing. -/
def ratNondecreasing : List ℚ → Bool
  | [] => true
  | [_] => true
  | a :: b :: t => decide (a ≤ b) && ratNondecreasing (b :: t)

/-- Boolean check that a list of naturals is non-decreasing. -/
def natNondecreasing : List Nat → Bool
  | [] => true
  | [_] => true
  | a :: b :: t => decide (a ≤ b) && natNondecreasing (b :: t)

theorem ratNondecreasing_tail {a : ℚ} {l : List ℚ}
    (h : ratNondecreasing (a :: l) = true) : ratNondecreasing l = true := by
  match l with
  | [] => rfl
  | b :: t =>
    rw [ratNondecreasing, Bool.and_eq_true] at h
    exact h.2

theorem progressReaderRun_chain (total : Nat) :
    ∀ ns : List Nat, ∀ read lastPct : Nat, lastPct ≤ read * 100 / total →
      ratNondecreasing (((lastPct : ℚ) / 100) :: progressReaderRun total read lastPct ns) =
        true := by
  intro ns
  induction ns with
  | nil =>
    intro read lastPct _
    rfl
  | cons n ns ih =>
    intro read lastPct hle
    have hmono : read * 100 / total ≤ (read + n) * 100 / total :=
      Nat.div_le_div_right (Nat.mul_le_mul_right 100 (Nat.le_add_right read n))
    rw [progressReaderRun]
    by_cases hcond : (read + n) * 100 / total ≠ lastPct ∧ (read + n) * 100 / total ≤ 100
    · rw [if_pos hcond, ratNondecreasing, Bool.and_eq_true]
      constructor
      · rw [decide_eq_true_eq]
        have : (lastPct : ℚ) ≤ (((read + n) * 100 / total : Nat) : ℚ) := by
          exact_mod_cast le_trans hle hmono
        gcongr
      · exact ih (read + n) ((read + n) * 100 / total) le_rfl
    · rw [if_neg hcond]
      exact ih (read + n) lastPct (le_trans hle hmono)

/-- Go `strings.TrimSpace` (Latin-1 whitespace). -/
def goTrimSpace (s : Str) : Str :=
  ((s.dropWhile isSpaceChar).reverse.dropWhile isSpaceChar).reverse

/-- Structural worker locating the first maximal digit run that is
immediately followed by `%` (the leftmost match of the `(\d+)%` pattern);
the `Nat` argument skips over an already-rejected digit run. -/
def findPctAux : Str → Nat → Option Str
  | [], _ => none
  | _ :: rest, skip + 1 => findPctAux rest skip
  | c :: rest, 0 =>
    if c.isDigit then
      match (c :: rest).drop ((c :: rest).takeWhile Char.isDigit).length with
      | '%' :: _ => some ((c :: rest).takeWhile Char.isDigit)
      | _ => findPctAux rest (((c :: rest).takeWhile Char.isDigit).length - 1)
    else findPctAux rest 0

/-- The digit group of the first `(\d+)%` match of a line, if any. -/
def findPct (s : Str) : Option Str := findPctAux s 0

/-- Go `strconv.Atoi` on a digit run: errors when the value overflows a
64-bit integer (in which case `streamCmdWithProgress` logs the line
instead of emitting progress). -/
def goAtoi (run : Str) : Option Nat :=
  if natOfDigits run ≤ 9223372036854775807 then some (natOfDigits run) else none

/-- The percentage `scanProgress` extracts from one scanned token:
trimmed-empty tokens and tokens without a parsed `(\d+)%` match yield
nothing (they are logged instead). -/
def linePct (line : Str) : Option Nat :=
  if goTrimSpace line = [] then none
  else
    match findPct (goTrimSpace line) with
    | some run => goAtoi run
    | none => none

/-- What `scanProgress` inside `streamCmdWithProgress` emits for one
scanned token: the extracted percentage mapped to
`base + (pct/100) × slice`, clamped at 1.0. -/
def lineProgress (base slice : ℚ) (line : Str) : Option ℚ :=
  (linePct line).map (fun pct : Nat => min 1 (base + ((pct : ℚ) / 100) * slice))

/-- The progress values emitted by `streamCmdWithProgress` over a token
stream. -/
def streamCmdProgressValues (base slice : ℚ) (lines : List Str) : List ℚ :=
  lines.filterMap (lineProgress base slice)

/-- The percentages extracted from a token stream. -/
def extractedPcts (lines : List Str) : List Nat :=
  lines.filterMap linePct

theorem streamCmdProgressValues_eq_map (base slice : ℚ) :
    ∀ lines : List Str,
      streamCmdProgressValues base slice lines =
        (extractedPcts lines).map (fun pct : Nat => min 1 (base + ((pct : ℚ) / 100) * slice)) := by
  intro lines
  induction lines with
  | nil => rfl
  | cons l ls ih =>
    rw [streamCmdProgressValues, extractedPcts, List.filterMap_cons, List.filterMap_cons]
    rw [streamCmdProgressValues, extractedPcts] at ih
    rw [lineProgress]
    cases hg : linePct l with
    | none => exact ih
    | some pct =>
      rw [List.map_cons]
      exact congrArg (List.cons _) ih

theorem natNondecreasing_map_progress (base slice : ℚ) (hs : 0 ≤ slice) :
    ∀ pcts : List Nat, natNondecreasing pcts = true →
      ratNondecreasing
        (pcts.map (fun pct : Nat => min 1 (base + ((pct : ℚ) / 100) * slice))) = true := by
  intro pcts
  induction pcts with
  | nil =>
    intro _
    rfl
  | cons a t ih =>
    intro h
    match t with
    | [] => rfl
    | b :: t2 =>
      rw [natNondecreasing, Bool.and_eq_true, decide_eq_true_eq] at h
      obtain ⟨hab, hrest⟩ := h
      rw [List.map_cons, List.map_cons, ratNondecreasing, Bool.and_eq_true,
        decide_eq_true_eq]
      refine ⟨?_, ?_⟩
      · refine min_le_min le_rfl ?_
        have hcast : (a : ℚ) ≤ (b : ℚ) := by exact_mod_cast hab
        have : (a : ℚ) / 100 * slice ≤ (b : ℚ) / 100 * slice := by
          refine mul_le_mul_of_nonneg_right ?_ hs
          gcongr
        linarith
      · have := ih hrest
        rw [List.map_cons] at this
        exact this

/-- C6 counterexample: phase-6 progress simply maps whatever percentages
the subprocess prints; the token sequence `50%`, `30%` yields the
decreasing progress values 1/2, 3/10, so progress events are not
non-decreasing for every sequence of subprocess output lines. -/
theorem C6_counterexample :
    ratNondecreasing
      (streamCmdProgressValues 0 1 [("50%" : String).data, ("30%" : String).data]) =
      false := by
  rw [streamCmdProgressValues_eq_map]
  have h1 : extractedPcts [("50%" : String).data, ("30%" : String).data] = [50, 30] := by
    decide
  rw [h1, List.map_cons, List.map_cons, List.map_nil, ratNondecreasing]
  have h2 : ¬ (min 1 ((0 : ℚ) + ((50 : Nat) : ℚ) / 100 * 1) ≤
      min 1 ((0 : ℚ) + ((30 : Nat) : ℚ) / 100 * 1)) := by
    rw [min_def, min_def]
    norm_num
  rw [decide_eq_false h2, Bool.false_and]

/-- C6 (amended): the import-phase progress reader emits a non-decreasing
progress sequence for every read sequence; the file-sync phase emits a
non-decreasing sequence provided the percentages printed by the
subprocess are themselves non-decreasing (the mapping
`pct ↦ min 1 (base + pct/100 × slice)` is monotone for `slice ≥ 0`), and
progress is not required to reach 1. -/
theorem C6_progress_amended :
    (∀ total : Nat, ∀ ns : List Nat,
      ratNondecreasing (progressReaderRun total 0 0 ns) = true) ∧
    (∀ base slice : ℚ, 0 ≤ slice → ∀ lines : List Str,
      natNondecreasing (extractedPcts lines) = true →
      ratNondecreasing (streamCmdProgressValues base slice lines) = true) := by
  constructor
  · intro total ns
    have := progressReaderRun_chain total ns 0 0 (Nat.zero_le _)
    exact ratNondecreasing_tail this
  · intro base slice hs lines hmono
    rw [streamCmdProgressValues_eq_map]
    exact natNondecreasing_map_progress base slice hs (extractedPcts lines) hmono

/-- C6 witness: the amended monotonicity applied to the concrete read
sequence 3, 4, 5 against a 10-byte dump and the concrete rsync token
stream `30%`, `50%`. -/
theorem C6_witness :
    ratNondecreasing (progressReaderRun 10 0 0 [3, 4, 5]) = true ∧
    ((0 : ℚ) ≤ 1 ∧
      natNondecreasing (extractedPcts [("30%" : String).data, ("50%" : String).data]) = true ∧
      ratNondecreasing
        (streamCmdProgressValues 0 1 [("30%" : String).data, ("50%" : String).data]) = true) :=
  ⟨C6_progress_amended.1 10 [3, 4, 5],
    ⟨by norm_num, by decide,
      C6_progress_amended.2 0 1 (by norm_num)
        [("30%" : String).data, ("50%" : String).data] (by decide)⟩⟩

end SiteSync
